import Mathlib

/-!
Verification development for the Grappa delegate-extractor pass
(src/compiler/GrappaGen/ExtractorPass.cpp).

The development shallowly embeds, in order:
  * the LLVM value shapes inspected by the provenance walk Grappa::search
    (ExtractorPass.cpp lines 27 to 55) and the classification predicates
    (lines 68 to 80);
  * the instruction and control-flow-graph model used by provenance
    analysis (lines 82 to 99), region validity (lines 205 to 226) and
    region growth CandidateRegion::expandRegion (lines 142 to 203);
  * the anchor-processing loop of ExtractorPass::runOnModule
    (lines 686 to 708);
  * small focused models of the exit-dispatch and output-store parts of
    CandidateRegion::extractRegion (lines 345 to 353 and 394 to 433).
-/

namespace Grappa

/-- Modelled from the spec: the address-space tag that marks a pointer type
as global-remote (remote-node-owned).  The numeric value of the tag is
defined in a header that is not part of the analysed sources; only its
distinctness from the symmetric tag matters. -/
def GLOBAL_SPACE : Nat := 100

/-- Modelled from the spec: the address-space tag that marks a pointer type
as symmetric-replicated (identically replicated on all nodes). -/
def SYMMETRIC_SPACE : Nat := 200

/-- The part of an LLVM type relevant to the pass: whether the type is a
pointer type, and if so its address space. -/
inductive LlvmTy where
  | ptr (addrSpace : Nat)
  | nonPtr
deriving DecidableEq, Repr

/-- The kind of a value that the provenance walk treats as a root
(neither a GetElementPtrInst, a CastInst, nor a ConstantExpr). -/
inductive BaseKind where
  | globalVar
  | constantVal
  | basicBlockRef
  | alloca
  | argument
  | otherInst
deriving DecidableEq, Repr

/-- Value shapes inspected by Grappa::search (ExtractorPass.cpp 27-55).
A gep node records whether the GetElementPtrInst is in-bounds, whether it
has indices, whether its first index is the literal constant zero, and its
pointer operand.  A cast node records its operand.  A constExpr node
records the instruction form produced by getAsInstruction().  A root node
records its kind and an identity (values compare by pointer identity in
LLVM; distinct ids model distinct values). -/
inductive LlvmValue where
  | gep (ty : LlvmTy) (inBounds hasIndices firstIdxZero : Bool) (pointee : LlvmValue)
  | cast (ty : LlvmTy) (op : LlvmValue)
  | constExpr (ty : LlvmTy) (inst : LlvmValue)
  | root (ty : LlvmTy) (kind : BaseKind) (id : Nat)
deriving DecidableEq, Repr

/-- The type of a value. -/
def tyOf : LlvmValue → LlvmTy
  | .gep ty _ _ _ _ => ty
  | .cast ty _ => ty
  | .constExpr ty _ => ty
  | .root ty _ _ => ty

/-- Address space of a pointer type; models PointerType::getAddressSpace as
used via GetElementPtrInst::getPointerAddressSpace (the address space of the
pointer operand of the gep). -/
def pointerAddrSpace : LlvmTy → Nat
  | .ptr a => a
  | .nonPtr => 0

/-- Whether a type is a pointer type (isa PointerType). -/
def isPtrTy : LlvmTy → Bool
  | .ptr _ => true
  | .nonPtr => false

/-- Grappa::search, ExtractorPass.cpp lines 27 to 55: the backward
provenance walk over address computations, casts and constant
expressions. -/
def search : LlvmValue → LlvmValue
  | .gep ty ib hi z base =>
    if !ib then .gep ty ib hi z base
    else if hi && (pointerAddrSpace (tyOf base) == GLOBAL_SPACE) && !z then
      .gep ty ib hi z base
    else search base
  | .cast ty op =>
    let vv := search op
    if isPtrTy (tyOf vv) then vv else .cast ty op
  | .constExpr _ inst => search inst
  | .root ty k i => .root ty k i

/-- isGlobalPtr, line 68.  The helper dyn_cast_addr is declared in a
header outside the analysed sources; modelled from the spec: true iff the
type of the value is a pointer tagged with the given address space. -/
def isGlobalPtr (v : LlvmValue) : Bool :=
  match tyOf v with
  | .ptr a => a == GLOBAL_SPACE
  | .nonPtr => false

/-- isSymmetricPtr, line 69. -/
def isSymmetricPtr (v : LlvmValue) : Bool :=
  match tyOf v with
  | .ptr a => a == SYMMETRIC_SPACE
  | .nonPtr => false

/-- isStatic, line 70: isa GlobalVariable. -/
def isStatic : LlvmValue → Bool
  | .root _ .globalVar _ => true
  | _ => false

/-- isConst, line 71: isa Constant or isa BasicBlock.  GlobalVariable and
ConstantExpr are Constant subclasses in LLVM. -/
def isConst : LlvmValue → Bool
  | .root _ .globalVar _ => true
  | .root _ .constantVal _ => true
  | .root _ .basicBlockRef _ => true
  | .constExpr _ _ => true
  | _ => false

/-- isStack, line 72: isa AllocaInst or isa Argument. -/
def isStack : LlvmValue → Bool
  | .root _ .alloca _ => true
  | .root _ .argument _ => true
  | _ => false

/-- Attributes of a directly called function that validInRegion consults
(line 215): the string attribute unbound and doesNotAccessMemory. -/
structure CalleeAttrs where
  unbound : Bool
  doesNotAccessMemory : Bool
deriving DecidableEq, Repr

/-- Instruction shapes relevant to the pass.  load and store carry their
pointer operand.  call models both CallInst and InvokeInst; touchesMem is
Instruction::mayReadOrWriteMemory for the call, and the Option is
CallSite::getCalledFunction (none for an indirect call).  otherMemOp is any
other instruction with mayReadOrWriteMemory true; pureOp any instruction
with mayReadOrWriteMemory false (arithmetic, terminators, phis, ...). -/
inductive Instr where
  | load (ptr : LlvmValue)
  | store (ptr : LlvmValue)
  | call (touchesMem : Bool) (callee : Option CalleeAttrs)
  | otherMemOp
  | pureOp
deriving DecidableEq, Repr

/-- Instruction::mayReadOrWriteMemory restricted to the model. -/
def mayReadOrWriteMemory : Instr → Bool
  | .load _ => true
  | .store _ => true
  | .call t _ => t
  | .otherMemOp => true
  | .pureOp => false

/-- getProvenance (lines 61 to 66) as observed after analyzeProvenance has
run on the containing function: the grappa.prov metadata is attached
exactly to loads and stores, holding the result of search on the pointer
operand (lines 82 to 99). -/
def getProvenance : Instr → Option LlvmValue
  | .load p => some (search p)
  | .store p => some (search p)
  | _ => none

/-- Whether the instruction is a CallInst or InvokeInst (line 211). -/
def isCallOrInvoke : Instr → Bool
  | .call _ _ => true
  | _ => false

/-- CandidateRegion::validInRegion, ExtractorPass.cpp lines 205 to 226.
vp is the valid_ptrs set of the region. -/
def validInRegion (vp : List LlvmValue) (i : Instr) : Bool :=
  if mayReadOrWriteMemory i then
    match getProvenance i with
    | some p => decide (p ∈ vp) || isSymmetricPtr p || isStatic p || isConst p
    | none =>
      match i with
      | .call _ (some fa) => fa.unbound || fa.doesNotAccessMemory
      | _ => false
  else true

/-- isAnchor, lines 74 to 80. -/
def isAnchor (i : Instr) : Bool :=
  match getProvenance i with
  | some p => isGlobalPtr p || isStack p
  | none => false

/-! ### Control-flow graph model -/

/-- A basic block: an identifier, its ordered instruction list (last entry
is the terminator) and the identifiers of its successor blocks. -/
structure Block where
  id : Nat
  insts : List Instr
  succs : List Nat
deriving DecidableEq, Repr

/-- A function body: its basic blocks. -/
structure Func where
  blocks : List Block
deriving DecidableEq, Repr

/-- An instruction position: containing block id and index in the block.
Instruction* identity in the source is modelled by position. -/
abbrev Pos := Nat × Nat

/-- The identifiers of the blocks of a function. -/
def blockIds (F : Func) : List Nat := F.blocks.map (·.id)

/-- Look up a block by id. -/
def blockOf (F : Func) (b : Nat) : Option Block :=
  F.blocks.find? (fun blk => blk.id == b)

/-- The instruction at a position, if any. -/
def instrAt (F : Func) (p : Pos) : Option Instr :=
  match blockOf F p.1 with
  | some blk => blk.insts[p.2]?
  | none => none

/-- Predecessor block ids of a block: every block listing it as a
successor (pred_begin/pred_end). -/
def predsOf (F : Func) (b : Nat) : List Nat :=
  (F.blocks.filter (fun blk => decide (b ∈ blk.succs))).map (·.id)

/-- All instruction positions of a function. -/
def allPosList (F : Func) : List Pos :=
  F.blocks.flatMap (fun blk => (List.range blk.insts.length).map (fun j => (blk.id, j)))

/-- All instruction positions, as a finite set. -/
def allPosFin (F : Func) : Finset Pos := (allPosList F).toFinset

/-- Well-formedness of the embedded function: blocks are nonempty, every
successor id names a block, and block ids are distinct. -/
def wfFunc (F : Func) : Bool :=
  F.blocks.all (fun blk => !blk.insts.isEmpty
    && blk.succs.all (fun s => decide (s ∈ blockIds F)))
  && decide (blockIds F).Nodup

/-- validInRegion applied at a position (per the source, the pointee of a
worklist iterator); false when the position is out of range. -/
def validAt (F : Func) (vp : List LlvmValue) (p : Pos) : Bool :=
  match instrAt F p with
  | some i => validInRegion vp i
  | none => false

/-! ### expandRegion state and step -/

/-- The candidate-ownership map (CandidateMap): instruction to owning
region id.  The map is total over positions, none meaning unclaimed. -/
abbrev CandMap := Pos → Option Nat

/-- The mutable state of CandidateRegion::expandRegion: the worklist (a
UniqueQueue of instructions), the set of instructions ever pushed (the
dedup set of the UniqueQueue), the sealed-block set bbs, the deferred
retry list try_again (a SetVector: insertion ordered, duplicate free), the
exits map (boundary instruction to frontier instruction; the frontier is
none when the boundary has no previous node), and the shared candidate
map. -/
structure ExpSt where
  work : List Pos
  seen : Finset Pos
  bbs : Finset Nat
  tryAgain : List Nat
  exits : List (Pos × Option Pos)
  cand : CandMap

/-- Errors surfaced by the expansion model: the two assert(false) sites of
the source (the ambiguous-merge conflict at line 182, the missing-exit
assert at line 196) and exhaustion of the fuel that drives the loop
recursion (no counterpart in the source; shown unreachable). -/
inductive ExpErr where
  | ambiguousMerge
  | tryAgainAssert
  | fuelOut
deriving DecidableEq, Repr

/-- Lookup in a position-keyed association list (first match wins, later
entries for the same key are shadowed, mirroring map assignment). -/
def alookup {β : Type} (k : Pos) : List (Pos × β) → Option β
  | [] => none
  | kv :: rest => if kv.1 = k then some kv.2 else alookup k rest

/-- Lookup in the exits association list. -/
def exLookup (k : Pos) (l : List (Pos × Option Pos)) : Option (Option Pos) :=
  alookup k l

/-- Erase a key from the exits association list (exits.erase). -/
def exErase (k : Pos) (l : List (Pos × Option Pos)) : List (Pos × Option Pos) :=
  l.filter (fun kv => decide (kv.1 ≠ k))

/-- Modelled from the spec: UniqueQueue::push enqueues an element only if
it was never enqueued before (the spec notes the driver worklist is
deduplicating, a function is processed once; the UniqueQueue container
itself is declared in a header outside the analysed sources). -/
def uniquePush (p : Pos) (s : ExpSt) : ExpSt :=
  if p ∈ s.seen then s
  else { s with work := s.work ++ [p], seen := insert p s.seen }

/-- SetVector insert: append if not present (line 171). -/
def taInsert (b : Nat) (l : List Nat) : List Nat :=
  if b ∈ l then l else l ++ [b]

/-- SetVector remove (line 198). -/
def taRemove (b : Nat) (l : List Nat) : List Nat :=
  l.filter (fun x => decide (x ≠ b))

/-- The checked exit-recording site, lines 181 to 185: recording a
boundary that already has an exit with a different frontier is the
assert(false && "unhandled case"), otherwise the exit is stored. -/
def recordExitChecked (target : Pos) (fr : Option Pos) (s : ExpSt) :
    Except ExpErr ExpSt :=
  match exLookup target s.exits with
  | some old =>
    if old ≠ fr then .error .ambiguousMerge
    else .ok { s with exits := (target, fr) :: s.exits }
  | none => .ok { s with exits := (target, fr) :: s.exits }

/-- Number of leading instructions accepted by validInRegion; models the
iterator advance of the claim loop at lines 153 to 156. -/
def leadingValid (vp : List LlvmValue) : List Instr → Nat
  | [] => 0
  | i :: rest => if validInRegion vp i then leadingValid vp rest + 1 else 0

/-- Claim positions (b, j) to (b, j + n - 1) for the region rid; models the
candidates[i] = this assignments of the claim loop (line 154). -/
def claimRange (rid : Nat) (b : Nat) (j : Nat) (n : Nat) (c : CandMap) : CandMap :=
  fun q => if q.1 = b ∧ j ≤ q.2 ∧ q.2 < j + n then some rid else c q

/-- Processing of one successor block sb of a sealed block (lines 160 to
187): check the successor entry instruction is valid; if so check all its
predecessors are sealed, deferring to try_again when one is not; enqueue
the entry when both hold, otherwise record an exit whose frontier is the
terminator of the sealed block. -/
def processSucc (F : Func) (vp : List LlvmValue) (fr : Option Pos)
    (s : ExpSt) (sb : Nat) : Except ExpErr ExpSt :=
  let tgt : Pos := (sb, 0)
  if validAt F vp tgt then
    let missing := (predsOf F sb).filter (fun pb => decide (pb ∉ s.bbs))
    if missing.isEmpty then .ok (uniquePush tgt s)
    else
      recordExitChecked tgt fr { s with tryAgain := taInsert sb s.tryAgain }
  else
    recordExitChecked tgt fr s

/-- Fold of processSucc over the successor list. -/
def goSuccs (F : Func) (vp : List LlvmValue) (fr : Option Pos) :
    List Nat → ExpSt → Except ExpErr ExpSt
  | [], s => .ok s
  | sb :: rest, s =>
    match processSucc F vp fr s sb with
    | .error e => .error e
    | .ok s1 => goSuccs F vp fr rest s1

/-- The try-again check at the end of each worklist iteration (lines 192
to 201): the first deferred block, if any, has its exit erased, is removed
from try_again and its entry re-enqueued.  The all-predecessors-sealed
flag the source computes at line 195 is not consulted by the source (the
local valid is dead), so none is computed here. -/
def tryAgainStep (s : ExpSt) : Except ExpErr ExpSt :=
  match s.tryAgain with
  | [] => .ok s
  | tb :: _ =>
    if (exLookup (tb, 0) s.exits).isSome then
      .ok (uniquePush (tb, 0)
        { s with exits := exErase (tb, 0) s.exits, tryAgain := taRemove tb s.tryAgain })
    else .error .tryAgainAssert

/-- The body of one worklist iteration of expandRegion for the popped
instruction p (lines 150 to 201): claim forward while valid; on reaching
the terminator seal the block and process successors; otherwise record a
mid-block exit; finally run the try-again check. -/
def expandBody (F : Func) (vp : List LlvmValue) (rid : Nat) (p : Pos)
    (s : ExpSt) : Except ExpErr ExpSt :=
  match blockOf F p.1 with
  | none => .ok s
  | some blk =>
    let cnt := leadingValid vp (blk.insts.drop p.2)
    let stop := p.2 + cnt
    let s0 := { s with cand := claimRange rid p.1 p.2 cnt s.cand }
    if stop = blk.insts.length then
      let s1 := { s0 with bbs := insert p.1 s0.bbs }
      match goSuccs F vp (some (p.1, blk.insts.length - 1)) blk.succs s1 with
      | .error e => .error e
      | .ok s2 => tryAgainStep s2
    else
      tryAgainStep
        { s0 with exits :=
            ((p.1, stop), if stop = 0 then none else some (p.1, stop - 1)) :: s0.exits }

/-- One iteration of the expandRegion while loop: pop the worklist head
and run the body; the identity when the worklist is empty. -/
def iterStep (F : Func) (vp : List LlvmValue) (rid : Nat) (s : ExpSt) :
    Except ExpErr ExpSt :=
  match s.work with
  | [] => .ok s
  | p :: rest => expandBody F vp rid p { s with work := rest }

/-- n iterations of the expandRegion loop. -/
def iterN (F : Func) (vp : List LlvmValue) (rid : Nat) : Nat → ExpSt → Except ExpErr ExpSt
  | 0, s => .ok s
  | n + 1, s =>
    match iterStep F vp rid s with
    | .error e => .error e
    | .ok s1 => iterN F vp rid n s1

/-- CandidateRegion::expandRegion (lines 142 to 203), fuel-driven: run
worklist iterations until the worklist drains.  The fuel is a modelling
artifact; the termination theorem shows a computable bound on it. -/
def expandLoop (F : Func) (vp : List LlvmValue) (rid : Nat) :
    Nat → ExpSt → Except ExpErr ExpSt
  | fuel, s =>
    match s.work with
    | [] => .ok s
    | p :: rest =>
      match fuel with
      | 0 => .error .fuelOut
      | f + 1 =>
        match expandBody F vp rid p { s with work := rest } with
        | .error e => .error e
        | .ok s1 => expandLoop F vp rid f s1

/-- The initial expansion state for entry instruction e over an ambient
candidate map c (lines 143 to 147). -/
def initSt (e : Pos) (c : CandMap) : ExpSt :=
  { work := [e], seen := {e}, bbs := ∅, tryAgain := [], exits := [], cand := c }

/-! ### Provenance analysis over a function -/

/-- The provenance entries produced for the instructions of one block,
starting at index j: one entry per load or store, in program order,
holding the result of search on the pointer operand (lines 84 to 92). -/
def analyzeInsts (bid : Nat) (j : Nat) : List Instr → List (Pos × LlvmValue)
  | [] => []
  | i :: rest =>
    match getProvenance i with
    | some v => ((bid, j), v) :: analyzeInsts bid (j + 1) rest
    | none => analyzeInsts bid (j + 1) rest

/-- The anchors collected from one block starting at index j: positions of
instructions whose freshly attached provenance is global or stack
(lines 93 to 95). -/
def anchorList (bid : Nat) (j : Nat) : List Instr → List Pos
  | [] => []
  | i :: rest =>
    if isAnchor i then (bid, j) :: anchorList bid (j + 1) rest
    else anchorList bid (j + 1) rest

/-- ExtractorPass::analyzeProvenance (lines 82 to 99) over the block list:
the attached provenance metadata (as an association list keyed by
position) and the collected anchor set, both in program order. -/
def analyzeFunc : List Block → List (Pos × LlvmValue) × List Pos
  | [] => ([], [])
  | blk :: rest =>
    let r := analyzeFunc rest
    (analyzeInsts blk.id 0 blk.insts ++ r.1, anchorList blk.id 0 blk.insts ++ r.2)

/-- analyzeProvenance of a function. -/
def analyzeProvenance (F : Func) : List (Pos × LlvmValue) × List Pos :=
  analyzeFunc F.blocks

/-- The provenance metadata at a position, read directly off the function:
the view of getProvenance valid after analyzeProvenance has run. -/
def getProvAt (F : Func) (p : Pos) : Option LlvmValue :=
  (instrAt F p).bind getProvenance

/-! ### Driver anchor loop -/

/-- Driver state while processing the anchors of one function
(runOnModule, lines 684 to 708): the shared candidate map, the regions
created so far as pairs (region id, target pointer seeded into
valid_ptrs), the id counter, and the (anchor, region id) creation log. -/
structure DrSt where
  cand : CandMap
  regs : List (Nat × LlvmValue)
  next : Nat
  created : List (Pos × Nat)

/-- Fuel sufficient for any expansion over F, per the termination
theorem. -/
def fuelFor (F : Func) : Nat := 1 + 2 * (allPosFin F).card

/-- Processing of one anchor by the driver (lines 686 to 708): skip it if
it is already claimed in the candidate map; otherwise, if its provenance
is a global pointer, create a region whose valid_ptrs is seeded with the
provenance and grow it with expandRegion. -/
def processAnchor (F : Func) (st : DrSt) (a : Pos) : Except ExpErr DrSt :=
  match getProvAt F a with
  | none => .ok st
  | some p =>
    if (st.cand a).isSome then .ok st
    else if isGlobalPtr p then
      match expandLoop F [p] st.next (fuelFor F) (initSt a st.cand) with
      | .error e => .error e
      | .ok es =>
        .ok { cand := es.cand, regs := st.regs ++ [(st.next, p)],
              next := st.next + 1, created := st.created ++ [(a, st.next)] }
    else .ok st

/-- The driver anchor loop over an anchor list. -/
def processAnchors (F : Func) : List Pos → DrSt → Except ExpErr DrSt
  | [], st => .ok st
  | a :: rest, st =>
    match processAnchor F st a with
    | .error e => .error e
    | .ok st1 => processAnchors F rest st1

/-- The driver state before any anchor of a fresh module is processed. -/
def initDr : DrSt := { cand := fun _ => none, regs := [], next := 0, created := [] }

/-! ### Concrete example functions -/

/-- A function argument of global-remote pointer type, id 1. -/
def gArg1 : LlvmValue := .root (.ptr GLOBAL_SPACE) .argument 1

/-- A function argument of global-remote pointer type, id 2. -/
def gArg2 : LlvmValue := .root (.ptr GLOBAL_SPACE) .argument 2

/-- Example function: two branch blocks 0 and 1, each loading through its
own global pointer, both jumping to the merge block 2.  Block 2 has two
predecessors, so its absorption is deferred to try_again by whichever
region reaches it first. -/
def exMerge : Func :=
  { blocks :=
      [ { id := 0, insts := [.load gArg1, .pureOp], succs := [2] },
        { id := 1, insts := [.load gArg2, .pureOp], succs := [2] },
        { id := 2, insts := [.pureOp, .pureOp], succs := [] } ] }

/-- Example function: one block loading through two unrelated global
pointers; the second load is invalid in a region grown from the first, so
the expansion records a mid-block exit. -/
def exStraight : Func :=
  { blocks := [ { id := 0, insts := [.load gArg1, .load gArg2, .pureOp], succs := [] } ] }

/-- Whether the instruction is a load or a store. -/
def isLoadOrStore : Instr → Bool
  | .load _ => true
  | .store _ => true
  | _ => false

/-- Whether the instruction is a direct call or invoke whose callee is
marked unbound or does not access memory (the condition of line 215). -/
def isMarkedCall : Instr → Bool
  | .call _ (some fa) => fa.unbound || fa.doesNotAccessMemory
  | _ => false

/-! ### Characterization of the provenance analysis -/

/-- Lookup below the running index of a block analysis misses. -/
theorem alookup_analyzeInsts_lt (bid : Nat) (l : List Instr) :
    ∀ (j b t : Nat), t < j → alookup (b, t) (analyzeInsts bid j l) = none := by
  induction l with
  | nil => intro j b t h; simp [analyzeInsts, alookup]
  | cons i rest ih =>
    intro j b t h
    cases hgp : getProvenance i with
    | some v =>
      simp only [analyzeInsts]
      rw [hgp]
      dsimp only
      simp only [alookup]
      rw [if_neg (by simp; omega)]
      exact ih (j + 1) b t (by omega)
    | none =>
      simp only [analyzeInsts]
      rw [hgp]
      dsimp only
      exact ih (j + 1) b t (by omega)

/-- Lookup with the wrong block id misses. -/
theorem alookup_analyzeInsts_ne (bid : Nat) (l : List Instr) :
    ∀ (j b t : Nat), b ≠ bid → alookup (b, t) (analyzeInsts bid j l) = none := by
  induction l with
  | nil => intro j b t h; simp [analyzeInsts, alookup]
  | cons i rest ih =>
    intro j b t h
    cases hgp : getProvenance i with
    | some v =>
      simp only [analyzeInsts]
      rw [hgp]
      dsimp only
      simp only [alookup]
      rw [if_neg (by simp; intro hb; exact absurd hb.symm h)]
      exact ih (j + 1) b t h
    | none =>
      simp only [analyzeInsts]
      rw [hgp]
      dsimp only
      exact ih (j + 1) b t h

/-- The provenance entries of a block analysis: position (bid, j + d)
holds the provenance attached to the d-th remaining instruction. -/
theorem alookup_analyzeInsts_add (bid : Nat) (l : List Instr) :
    ∀ (j d : Nat), alookup (bid, j + d) (analyzeInsts bid j l)
      = (l[d]?).bind getProvenance := by
  induction l with
  | nil => intro j d; simp [analyzeInsts, alookup]
  | cons i rest ih =>
    intro j d
    cases hgp : getProvenance i with
    | some v =>
      simp only [analyzeInsts]
      rw [hgp]
      dsimp only
      cases d with
      | zero => simp [alookup, hgp]
      | succ d2 =>
        simp only [alookup]
        rw [if_neg (by intro hc; injection hc with h1 h2; omega)]
        have h2 : j + (d2 + 1) = (j + 1) + d2 := by omega
        rw [h2, ih (j + 1) d2]
        simp
    | none =>
      simp only [analyzeInsts]
      rw [hgp]
      dsimp only
      cases d with
      | zero =>
        rw [Nat.add_zero, alookup_analyzeInsts_lt bid rest (j + 1) bid j (by omega)]
        simp [hgp]
      | succ d2 =>
        have h2 : j + (d2 + 1) = (j + 1) + d2 := by omega
        rw [h2, ih (j + 1) d2]
        simp

/-- Lookup distributes over append, first list winning. -/
theorem alookup_append {β : Type} (k : Pos) (l1 l2 : List (Pos × β)) :
    alookup k (l1 ++ l2)
      = match alookup k l1 with
        | some v => some v
        | none => alookup k l2 := by
  induction l1 with
  | nil => simp [alookup]
  | cons kv rest ih =>
    by_cases hk : kv.1 = k
    · simp [alookup, hk]
    · simp only [List.cons_append, alookup, if_neg hk]
      exact ih

/-- A function-level lookup whose block id appears in no block misses. -/
theorem alookup_analyzeFunc_none (bs : List Block) (p : Pos)
    (h : ∀ blk ∈ bs, blk.id ≠ p.1) :
    alookup p (analyzeFunc bs).1 = none := by
  induction bs with
  | nil => simp [analyzeFunc, alookup]
  | cons blk rest ih =>
    simp only [analyzeFunc]
    rw [alookup_append]
    rw [alookup_analyzeInsts_ne blk.id blk.insts 0 p.1 p.2 (fun hb => h blk (by simp) hb.symm)]
    exact ih (fun b hb => h b (List.mem_cons_of_mem _ hb))

/-- Lookup in the analysis result of a block list with distinct ids finds
the provenance of the instruction at the position, through find?. -/
theorem alookup_analyzeFunc (bs : List Block) (hnd : (bs.map Block.id).Nodup) (b t : Nat) :
    alookup (b, t) (analyzeFunc bs).1
      = match bs.find? (fun blk => blk.id == b) with
        | some blk => (blk.insts[t]?).bind getProvenance
        | none => none := by
  induction bs with
  | nil => simp [analyzeFunc, alookup]
  | cons blk rest ih =>
    have hnd2 := hnd
    simp only [List.map_cons, List.nodup_cons] at hnd2
    simp only [analyzeFunc]
    rw [alookup_append]
    by_cases hb : blk.id = b
    · subst hb
      have hf : (blk :: rest).find? (fun x => x.id == blk.id) = some blk := by
        simp [List.find?]
      rw [hf]
      dsimp only
      have hadd := alookup_analyzeInsts_add blk.id blk.insts 0 t
      rw [Nat.zero_add] at hadd
      rw [hadd]
      cases hl : (blk.insts[t]?).bind getProvenance with
      | some v => rfl
      | none =>
        dsimp only
        apply alookup_analyzeFunc_none
        intro b2 hb2 hid
        have hid2 : b2.id = blk.id := hid
        exact hnd2.1 (hid2 ▸ List.mem_map_of_mem Block.id hb2)
    · rw [alookup_analyzeInsts_ne blk.id blk.insts 0 b t (fun h2 => hb h2.symm)]
      have hf : (blk :: rest).find? (fun x => x.id == b)
          = rest.find? (fun x => x.id == b) := by
        have hbe : (blk.id == b) = false := by simp [hb]
        simp [List.find?, hbe]
      rw [hf]
      exact ih hnd2.2

/-- wfFunc implies distinct block ids. -/
theorem wfFunc_nodup (F : Func) (hw : wfFunc F = true) : (blockIds F).Nodup := by
  simp only [wfFunc, Bool.and_eq_true, decide_eq_true_eq] at hw
  exact hw.2

/-- The attached provenance metadata coincides with the direct view
getProvAt: memoized analysis does not change results. -/
theorem provMap_eq_getProvAt (F : Func) (hw : wfFunc F = true) (p : Pos) :
    alookup p (analyzeProvenance F).1 = getProvAt F p := by
  obtain ⟨b, t⟩ := p
  have hnd : (F.blocks.map Block.id).Nodup := wfFunc_nodup F hw
  unfold analyzeProvenance
  rw [alookup_analyzeFunc F.blocks hnd b t]
  unfold getProvAt instrAt blockOf
  cases F.blocks.find? (fun blk => blk.id == b) with
  | none => rfl
  | some blk => rfl

/-- Positions in the anchor list of one block point at anchor
instructions of that block. -/
theorem mem_anchorList (bid : Nat) (l : List Instr) :
    ∀ (j b t : Nat), (b, t) ∈ anchorList bid j l →
      b = bid ∧ j ≤ t ∧ ∃ i, l[t - j]? = some i ∧ isAnchor i = true := by
  induction l with
  | nil => intro j b t h; simp [anchorList] at h
  | cons i rest ih =>
    intro j b t h
    by_cases ha : isAnchor i = true
    · simp only [anchorList, if_pos ha] at h
      rcases List.mem_cons.mp h with heq | hmem
      · injection heq with hb ht
        subst hb; subst ht
        exact ⟨rfl, Nat.le_refl _, i, by simp, ha⟩
      · obtain ⟨hb, hj, i2, hi2, ha2⟩ := ih (j + 1) b t hmem
        refine ⟨hb, by omega, i2, ?_, ha2⟩
        have h2 : t - j = (t - (j + 1)) + 1 := by omega
        rw [h2]
        simpa using hi2
    · simp only [anchorList, if_neg ha] at h
      obtain ⟨hb, hj, i2, hi2, ha2⟩ := ih (j + 1) b t h
      refine ⟨hb, by omega, i2, ?_, ha2⟩
      have h2 : t - j = (t - (j + 1)) + 1 := by omega
      rw [h2]
      simpa using hi2

/-- Every collected anchor position addresses an anchor instruction in
some block with the matching id. -/
theorem mem_analyzeFunc_anchors (bs : List Block) (p : Pos)
    (h : p ∈ (analyzeFunc bs).2) :
    ∃ blk, blk ∈ bs ∧ blk.id = p.1 ∧
      ∃ i, blk.insts[p.2]? = some i ∧ isAnchor i = true := by
  induction bs with
  | nil => simp [analyzeFunc] at h
  | cons blk rest ih =>
    simp only [analyzeFunc] at h
    rcases List.mem_append.mp h with hh | ht
    · obtain ⟨b, t⟩ := p
      obtain ⟨hb, -, i, hi, ha⟩ := mem_anchorList blk.id blk.insts 0 b t hh
      exact ⟨blk, by simp, hb.symm, i, by simpa using hi, ha⟩
    · obtain ⟨blk2, hmem, hrest⟩ := ih ht
      exact ⟨blk2, List.mem_cons_of_mem _ hmem, hrest⟩

/-- find? by id over blocks with distinct ids returns the member block
with that id. -/
theorem find?_block_of_nodup (bs : List Block) (hnd : (bs.map Block.id).Nodup)
    (blk : Block) (hmem : blk ∈ bs) :
    bs.find? (fun x => x.id == blk.id) = some blk := by
  induction bs with
  | nil => simp at hmem
  | cons b2 rest ih =>
    have hnd2 := hnd
    simp only [List.map_cons, List.nodup_cons] at hnd2
    by_cases hid : b2.id = blk.id
    · have hbe : blk = b2 := by
        rcases List.mem_cons.mp hmem with heq | hmem2
        · exact heq
        · exact absurd (hid ▸ List.mem_map_of_mem Block.id hmem2) hnd2.1
      subst hbe
      simp [List.find?]
    · have hf : (b2 :: rest).find? (fun x => x.id == blk.id)
          = rest.find? (fun x => x.id == blk.id) := by
        have hbe : (b2.id == blk.id) = false := by simp [hid]
        simp [List.find?, hbe]
      rw [hf]
      rcases List.mem_cons.mp hmem with heq | hmem2
      · rw [heq] at hid
        exact absurd rfl hid
      · exact ih hnd2.2 hmem2

/-- An anchor instruction is a load or a store. -/
theorem isAnchor_isLoadOrStore (i : Instr) (h : isAnchor i = true) :
    isLoadOrStore i = true := by
  cases i <;> simp [isAnchor, getProvenance, isLoadOrStore] at h ⊢

/-- C10: provenance is attached to an instruction iff it is a load or a
store (the memoized analysis coincides with the direct per-instruction
view); every collected anchor is a load or store; and any other
memory-touching instruction, in particular a call that is neither marked
unbound nor free of memory access, is invalid in every region whatever
its valid_ptrs. -/
theorem provenance_only_loads_and_stores (F : Func) (hw : wfFunc F = true) :
    (∀ p, alookup p (analyzeProvenance F).1 = getProvAt F p)
    ∧ (∀ p, (getProvAt F p).isSome = true ↔
        ∃ iv, instrAt F p = some iv ∧ isLoadOrStore iv = true)
    ∧ (∀ p, p ∈ (analyzeProvenance F).2 →
        ∃ iv, instrAt F p = some iv ∧ isLoadOrStore iv = true ∧ isAnchor iv = true)
    ∧ (∀ (i : Instr) (vp : List LlvmValue), mayReadOrWriteMemory i = true →
        isLoadOrStore i = false → isMarkedCall i = false →
        validInRegion vp i = false) := by
  refine ⟨provMap_eq_getProvAt F hw, ?_, ?_, ?_⟩
  · intro p
    have hgp : getProvAt F p = (instrAt F p).bind getProvenance := rfl
    cases h : instrAt F p with
    | none => rw [hgp, h]; simp
    | some iv =>
      rw [hgp, h]
      cases iv <;> simp [getProvenance, isLoadOrStore]
  · intro p hp
    obtain ⟨blk, hmem, hid, i, hi, ha⟩ := mem_analyzeFunc_anchors F.blocks p hp
    refine ⟨i, ?_, isAnchor_isLoadOrStore i ha, ha⟩
    unfold instrAt blockOf
    rw [← hid, find?_block_of_nodup F.blocks (wfFunc_nodup F hw) blk hmem]
    exact hi
  · intro i vp h1 h2 h3
    cases i with
    | load p => simp [isLoadOrStore] at h2
    | store p => simp [isLoadOrStore] at h2
    | call t c =>
      have ht : t = true := h1
      subst ht
      cases c with
      | none => rfl
      | some fa =>
        have h4 : fa.unbound = false ∧ fa.doesNotAccessMemory = false := by
          simpa [isMarkedCall, Bool.or_eq_false_iff] using h3
        simp [validInRegion, getProvenance, mayReadOrWriteMemory, h4.1, h4.2]
    | otherMemOp => simp [validInRegion, mayReadOrWriteMemory, getProvenance]
    | pureOp => simp [mayReadOrWriteMemory] at h1

/-- Witness for the provenance characterization on the exMerge function
and a concrete memory-touching non-load non-store instruction. -/
theorem provenance_only_loads_and_stores_witness :
    alookup (0, 0) (analyzeProvenance exMerge).1 = getProvAt exMerge (0, 0)
    ∧ ((getProvAt exMerge (0, 0)).isSome = true ↔
        ∃ iv, instrAt exMerge (0, 0) = some iv ∧ isLoadOrStore iv = true)
    ∧ (∃ iv, instrAt exMerge (0, 0) = some iv ∧ isLoadOrStore iv = true
        ∧ isAnchor iv = true)
    ∧ validInRegion [gArg1] (.call true (some { unbound := false, doesNotAccessMemory := false })) = false := by
  have h := provenance_only_loads_and_stores exMerge (by decide)
  exact ⟨h.1 (0, 0), h.2.1 (0, 0), h.2.2.1 (0, 0) (by decide),
    h.2.2.2 _ [gArg1] (by decide) (by decide) (by decide)⟩

/-! ### Termination of the expansion loop -/

/-- The structural data wfFunc certifies, per block. -/
theorem wfFunc_blocks (F : Func) (hw : wfFunc F = true) :
    ∀ blk ∈ F.blocks, blk.insts.isEmpty = false
      ∧ ∀ s ∈ blk.succs, s ∈ blockIds F := by
  simp only [wfFunc, Bool.and_eq_true, List.all_eq_true, Bool.not_eq_eq_eq_not,
    Bool.not_true, decide_eq_true_eq] at hw
  intro blk hmem
  obtain ⟨h1, h2⟩ := hw.1 blk hmem
  exact ⟨h1, fun s hs => h2 s hs⟩

/-- The entry position of any named block of a well-formed function is a
position of the function. -/
theorem blockId_pos_mem (F : Func) (hw : wfFunc F = true) (b : Nat)
    (hb : b ∈ blockIds F) : ((b, 0) : Pos) ∈ allPosFin F := by
  obtain ⟨blk, hmem, hid⟩ := List.mem_map.mp hb
  have hne := (wfFunc_blocks F hw blk hmem).1
  rw [allPosFin, List.mem_toFinset, allPosList, List.mem_flatMap]
  refine ⟨blk, hmem, ?_⟩
  rw [List.mem_map]
  refine ⟨0, ?_, by rw [hid]⟩
  rw [List.mem_range]
  cases hi : blk.insts with
  | nil => rw [hi] at hne; simp at hne
  | cons a l => simp

/-- Side conditions threaded through the termination argument: every
position ever pushed belongs to the function, and every deferred block id
names a block. -/
def seenOk (F : Func) (s : ExpSt) : Prop :=
  s.seen ⊆ allPosFin F ∧ ∀ tb ∈ s.tryAgain, tb ∈ blockIds F

/-- The termination measure of the expansion loop: pending worklist
entries plus twice the never-pushed positions. -/
def measureOf (F : Func) (s : ExpSt) : Nat :=
  s.work.length + 2 * ((allPosFin F).card - s.seen.card)

/-- uniquePush does not increase the measure and preserves the side
conditions; it touches only work and seen. -/
theorem uniquePush_measure (F : Func) (p : Pos) (s : ExpSt)
    (hp : p ∈ allPosFin F) (hs : s.seen ⊆ allPosFin F) :
    measureOf F (uniquePush p s) ≤ measureOf F s
      ∧ (uniquePush p s).seen ⊆ allPosFin F
      ∧ (uniquePush p s).tryAgain = s.tryAgain
      ∧ (uniquePush p s).exits = s.exits
      ∧ (uniquePush p s).cand = s.cand
      ∧ (uniquePush p s).bbs = s.bbs := by
  unfold uniquePush
  by_cases hmem : p ∈ s.seen
  · rw [if_pos hmem]
    exact ⟨Nat.le_refl _, hs, rfl, rfl, rfl, rfl⟩
  · rw [if_neg hmem]
    have hcard : s.seen.card < (allPosFin F).card := by
      apply Finset.card_lt_card
      rw [Finset.ssubset_iff_of_subset hs]
      exact ⟨p, hp, hmem⟩
    refine ⟨?_, ?_, rfl, rfl, rfl, rfl⟩
    · unfold measureOf
      simp only [List.length_append, List.length_cons, List.length_nil,
        Finset.card_insert_of_not_mem hmem]
      omega
    · intro q hq
      rcases Finset.mem_insert.mp hq with h2 | h2
      · rw [h2]; exact hp
      · exact hs h2

/-- Properties of one successor step: on success, measure does not grow
and side conditions persist; errors are the ambiguous-merge assert. -/
theorem processSucc_measure (F : Func) (vp : List LlvmValue) (fr : Option Pos)
    (s : ExpSt) (sb : Nat) (hw : wfFunc F = true) (hsb : sb ∈ blockIds F)
    (hs : s.seen ⊆ allPosFin F) (hta : ∀ tb ∈ s.tryAgain, tb ∈ blockIds F) :
    (∀ s2, processSucc F vp fr s sb = .ok s2 →
      measureOf F s2 ≤ measureOf F s ∧ s2.seen ⊆ allPosFin F
        ∧ (∀ tb ∈ s2.tryAgain, tb ∈ blockIds F) ∧ s2.cand = s.cand)
    ∧ (∀ e, processSucc F vp fr s sb = .error e → e = .ambiguousMerge) := by
  unfold processSucc
  by_cases hv : validAt F vp (sb, 0) = true
  · rw [if_pos hv]
    by_cases hm : ((predsOf F sb).filter (fun pb => decide (pb ∉ s.bbs))).isEmpty = true
    · rw [if_pos hm]
      constructor
      · intro s2 hok
        injection hok with hok
        subst hok
        obtain ⟨h1, h2, h3, h4, h5, h6⟩ :=
          uniquePush_measure F (sb, 0) s (blockId_pos_mem F hw sb hsb) hs
        exact ⟨h1, h2, by rw [h3]; exact hta, h5⟩
      · intro e he; cases he
    · rw [if_neg hm]
      unfold recordExitChecked
      cases hl : exLookup (sb, 0) s.exits with
      | some old =>
        dsimp only
        by_cases hne : old ≠ fr
        · rw [if_pos hne]
          refine ⟨?_, ?_⟩
          · intro s2 h2; cases h2
          · intro e he; injection he with he; exact he.symm
        · rw [if_neg hne]
          constructor
          · intro s2 hok
            injection hok with hok
            subst hok
            refine ⟨Nat.le_refl _, hs, ?_, rfl⟩
            intro tb htb
            unfold taInsert at htb
            by_cases hin : sb ∈ s.tryAgain
            · rw [if_pos hin] at htb; exact hta tb htb
            · rw [if_neg hin] at htb
              rcases List.mem_append.mp htb with h2 | h2
              · exact hta tb h2
              · rw [List.mem_singleton.mp h2]; exact hsb
          · intro e he; cases he
      | none =>
        dsimp only
        constructor
        · intro s2 hok
          injection hok with hok
          subst hok
          refine ⟨Nat.le_refl _, hs, ?_, rfl⟩
          intro tb htb
          unfold taInsert at htb
          by_cases hin : sb ∈ s.tryAgain
          · rw [if_pos hin] at htb; exact hta tb htb
          · rw [if_neg hin] at htb
            rcases List.mem_append.mp htb with h2 | h2
            · exact hta tb h2
            · rw [List.mem_singleton.mp h2]; exact hsb
        · intro e he; cases he
  · rw [if_neg hv]
    unfold recordExitChecked
    cases hl : exLookup (sb, 0) s.exits with
    | some old =>
      dsimp only
      by_cases hne : old ≠ fr
      · rw [if_pos hne]
        refine ⟨?_, ?_⟩
        · intro s2 h2; cases h2
        · intro e he; injection he with he; exact he.symm
      · rw [if_neg hne]
        constructor
        · intro s2 hok
          injection hok with hok
          subst hok
          exact ⟨Nat.le_refl _, hs, hta, rfl⟩
        · intro e he; cases he
    | none =>
      dsimp only
      constructor
      · intro s2 hok
        injection hok with hok
        subst hok
        exact ⟨Nat.le_refl _, hs, hta, rfl⟩
      · intro e he; cases he

/-- Fold of processSucc over successors contained in the function. -/
theorem goSuccs_measure (F : Func) (vp : List LlvmValue) (fr : Option Pos)
    (hw : wfFunc F = true) :
    ∀ (l : List Nat) (s : ExpSt), (∀ sb ∈ l, sb ∈ blockIds F) →
      s.seen ⊆ allPosFin F → (∀ tb ∈ s.tryAgain, tb ∈ blockIds F) →
      (∀ s2, goSuccs F vp fr l s = .ok s2 →
        measureOf F s2 ≤ measureOf F s ∧ s2.seen ⊆ allPosFin F
          ∧ (∀ tb ∈ s2.tryAgain, tb ∈ blockIds F) ∧ s2.cand = s.cand)
      ∧ (∀ e, goSuccs F vp fr l s = .error e → e = .ambiguousMerge) := by
  intro l
  induction l with
  | nil =>
    intro s hl hs hta
    constructor
    · intro s2 hok
      injection hok with hok
      subst hok
      exact ⟨Nat.le_refl _, hs, hta, rfl⟩
    · intro e he; cases he
  | cons sb rest ih =>
    intro s hl hs hta
    have hstep := processSucc_measure F vp fr s sb hw (hl sb (by simp)) hs hta
    constructor
    · intro s2 hok
      unfold goSuccs at hok
      cases hps : processSucc F vp fr s sb with
      | error e => rw [hps] at hok; cases hok
      | ok s1 =>
        rw [hps] at hok
        obtain ⟨h1, h2, h3, h4⟩ := hstep.1 s1 hps
        obtain ⟨g1, g2, g3, g4⟩ :=
          (ih s1 (fun x hx => hl x (List.mem_cons_of_mem _ hx)) h2 h3).1 s2 hok
        exact ⟨Nat.le_trans g1 h1, g2, g3, g4.trans h4⟩
    · intro e he
      unfold goSuccs at he
      cases hps : processSucc F vp fr s sb with
      | error e2 =>
        rw [hps] at he
        injection he with he
        rw [← he]
        exact hstep.2 e2 hps
      | ok s1 =>
        rw [hps] at he
        exact (ih s1 (fun x hx => hl x (List.mem_cons_of_mem _ hx))
          ((hstep.1 s1 hps).2.1) ((hstep.1 s1 hps).2.2.1)).2 e he

/-- The retry step: on success, measure does not grow, side conditions
persist, and cand is untouched; errors are the missing-exit assert. -/
theorem tryAgainStep_measure (F : Func) (s : ExpSt) (hw : wfFunc F = true)
    (hs : s.seen ⊆ allPosFin F) (hta : ∀ tb ∈ s.tryAgain, tb ∈ blockIds F) :
    (∀ s2, tryAgainStep s = .ok s2 →
      measureOf F s2 ≤ measureOf F s ∧ s2.seen ⊆ allPosFin F
        ∧ (∀ tb ∈ s2.tryAgain, tb ∈ blockIds F) ∧ s2.cand = s.cand)
    ∧ (∀ e, tryAgainStep s = .error e → e = .tryAgainAssert) := by
  unfold tryAgainStep
  cases hta2 : s.tryAgain with
  | nil =>
    constructor
    · intro s2 hok
      injection hok with hok
      subst hok
      exact ⟨Nat.le_refl _, hs, hta, rfl⟩
    · intro e he; cases he
  | cons tb rest =>
    have htb : tb ∈ blockIds F := hta tb (by rw [hta2]; simp)
    dsimp only
    by_cases hl : (exLookup (tb, 0) s.exits).isSome = true
    · rw [if_pos hl]
      constructor
      · intro s2 hok
        injection hok with hok
        subst hok
        obtain ⟨h1, h2, h3, h4, h5, h6⟩ :=
          uniquePush_measure F (tb, 0) { s with exits := exErase (tb, 0) s.exits, tryAgain := taRemove tb (tb :: rest) } (blockId_pos_mem F hw tb htb) hs
        refine ⟨h1, h2, ?_, h5⟩
        intro x hx
        rw [h3] at hx
        have hx3 : x ∈ taRemove tb (tb :: rest) := hx
        have hx2 : x ∈ tb :: rest := List.mem_of_mem_filter hx3
        rw [← hta2] at hx2
        exact hta x hx2
      · intro e he; cases he
    · rw [if_neg hl]
      refine ⟨?_, ?_⟩
      · intro s2 h2; cases h2
      · intro e he; injection he with he; exact he.symm

/-- The block found by blockOf is a block of the function. -/
theorem blockOf_mem (F : Func) (b : Nat) (blk : Block)
    (h : blockOf F b = some blk) : blk ∈ F.blocks :=
  List.mem_of_find?_eq_some h

/-- One whole iteration body: on success the measure does not grow and
side conditions persist; no error is the fuel artifact. -/
theorem expandBody_measure (F : Func) (vp : List LlvmValue) (rid : Nat)
    (p : Pos) (s : ExpSt) (hw : wfFunc F = true)
    (hs : s.seen ⊆ allPosFin F) (hta : ∀ tb ∈ s.tryAgain, tb ∈ blockIds F) :
    (∀ s2, expandBody F vp rid p s = .ok s2 →
      measureOf F s2 ≤ measureOf F s ∧ s2.seen ⊆ allPosFin F
        ∧ (∀ tb ∈ s2.tryAgain, tb ∈ blockIds F))
    ∧ (∀ e, expandBody F vp rid p s = .error e → e ≠ .fuelOut) := by
  unfold expandBody
  cases hb : blockOf F p.1 with
  | none =>
    dsimp only
    constructor
    · intro s2 hok
      injection hok with hok
      subst hok
      exact ⟨Nat.le_refl _, hs, hta⟩
    · intro e he; cases he
  | some blk =>
    dsimp only
    have hsuccs : ∀ sb ∈ blk.succs, sb ∈ blockIds F :=
      (wfFunc_blocks F hw blk (blockOf_mem F p.1 blk hb)).2
    by_cases hstop : p.2 + leadingValid vp (blk.insts.drop p.2) = blk.insts.length
    · rw [if_pos hstop]
      have hgo := goSuccs_measure F vp (some (p.1, blk.insts.length - 1)) hw blk.succs
        { s with cand := claimRange rid p.1 p.2 (leadingValid vp (blk.insts.drop p.2)) s.cand,
                 bbs := insert p.1 s.bbs }
        hsuccs hs hta
      constructor
      · intro s2 hok
        cases hgs : goSuccs F vp (some (p.1, blk.insts.length - 1)) blk.succs
            { s with cand := claimRange rid p.1 p.2 (leadingValid vp (blk.insts.drop p.2)) s.cand,
                     bbs := insert p.1 s.bbs } with
        | error e => rw [hgs] at hok; cases hok
        | ok s1 =>
          rw [hgs] at hok
          obtain ⟨g1, g2, g3, g4⟩ := hgo.1 s1 hgs
          obtain ⟨t1, t2, t3, t4⟩ := (tryAgainStep_measure F s1 hw g2 g3).1 s2 hok
          exact ⟨Nat.le_trans t1 g1, t2, t3⟩
      · intro e he
        cases hgs : goSuccs F vp (some (p.1, blk.insts.length - 1)) blk.succs
            { s with cand := claimRange rid p.1 p.2 (leadingValid vp (blk.insts.drop p.2)) s.cand,
                     bbs := insert p.1 s.bbs } with
        | error e2 =>
          rw [hgs] at he
          injection he with he
          rw [← he]
          rw [hgo.2 e2 hgs]
          intro hcontra; cases hcontra
        | ok s1 =>
          rw [hgs] at he
          obtain ⟨g1, g2, g3, g4⟩ := hgo.1 s1 hgs
          rw [(tryAgainStep_measure F s1 hw g2 g3).2 e he]
          intro hcontra; cases hcontra
    · rw [if_neg hstop]
      have hmid := tryAgainStep_measure F
        { s with cand := claimRange rid p.1 p.2 (leadingValid vp (blk.insts.drop p.2)) s.cand,
                 exits := ((p.1, p.2 + leadingValid vp (blk.insts.drop p.2)),
                   if p.2 + leadingValid vp (blk.insts.drop p.2) = 0 then none
                   else some (p.1, p.2 + leadingValid vp (blk.insts.drop p.2) - 1)) :: s.exits }
        hw hs hta
      constructor
      · intro s2 hok
        obtain ⟨t1, t2, t3, t4⟩ := hmid.1 s2 hok
        exact ⟨t1, t2, t3⟩
      · intro e he
        rw [hmid.2 e he]
        intro hcontra; cases hcontra

/-- The expansion loop never runs out of fuel exceeding the measure. -/
theorem expandLoop_no_fuelOut (F : Func) (vp : List LlvmValue) (rid : Nat)
    (hw : wfFunc F = true) :
    ∀ (fuel : Nat) (s : ExpSt), s.seen ⊆ allPosFin F →
      (∀ tb ∈ s.tryAgain, tb ∈ blockIds F) → measureOf F s < fuel →
      expandLoop F vp rid fuel s ≠ .error .fuelOut := by
  intro fuel
  induction fuel with
  | zero => intro s _ _ hm; omega
  | succ f ih =>
    intro s hs hta hm
    unfold expandLoop
    cases hwk : s.work with
    | nil =>
      dsimp only
      intro hcontra; cases hcontra
    | cons p rest =>
      dsimp only
      have hsm : measureOf F { s with work := rest } + 1 = measureOf F s := by
        unfold measureOf
        simp only [hwk, List.length_cons]
        omega
      have hbody := expandBody_measure F vp rid p { s with work := rest } hw hs hta
      cases hb : expandBody F vp rid p { s with work := rest } with
      | error e =>
        dsimp only
        intro hcontra
        injection hcontra with hcontra
        exact hbody.2 e hb hcontra
      | ok s1 =>
        dsimp only
        obtain ⟨m1, m2, m3⟩ := hbody.1 s1 hb
        exact ih s1 m2 m3 (by omega)

/-- C9: for a well-formed function (finitely many instructions by
construction), expandRegion reaches a result within the computable fuel
bound: the combined worklist and retry loop cannot run forever. -/
theorem expandRegion_terminates (F : Func) (vp : List LlvmValue) (rid : Nat)
    (entry : Pos) (c0 : CandMap) (fuel : Nat) (hw : wfFunc F = true)
    (hentry : entry ∈ allPosList F) (hfuel : 1 + 2 * (allPosFin F).card ≤ fuel) :
    expandLoop F vp rid fuel (initSt entry c0) ≠ .error .fuelOut := by
  apply expandLoop_no_fuelOut F vp rid hw fuel
  · intro q hq
    have hq2 : q = entry := Finset.mem_singleton.mp hq
    rw [hq2]
    exact List.mem_toFinset.mpr hentry
  · intro tb htb
    cases htb
  · have hN : 0 < (allPosFin F).card :=
      Finset.card_pos.mpr ⟨entry, List.mem_toFinset.mpr hentry⟩
    have hc : ({entry} : Finset Pos).card = 1 := Finset.card_singleton entry
    unfold measureOf initSt
    simp only [List.length_cons, List.length_nil, hc]
    omega

/-- Witness: the termination bound holds on the concrete exMerge function
from its anchor. -/
theorem expandRegion_terminates_witness :
    expandLoop exMerge [gArg1] 0 (1 + 2 * (allPosFin exMerge).card)
      (initSt (0, 0) (fun _ => none)) ≠ .error .fuelOut :=
  expandRegion_terminates exMerge [gArg1] 0 (0, 0) (fun _ => none) _
    (by decide) (by decide) (Nat.le_refl _)

/-! ### The exit-conflict invariant of the expansion loop -/

/-- Lookup after a cons. -/
theorem alookup_cons {β : Type} (k target : Pos) (v : β) (l : List (Pos × β)) :
    alookup k ((target, v) :: l) = if target = k then some v else alookup k l := rfl

/-- Lookup after a cons, phrased on the exits map. -/
theorem exLookup_cons (k target : Pos) (v : Option Pos) (l : List (Pos × Option Pos)) :
    exLookup k ((target, v) :: l) = if target = k then some v else exLookup k l := rfl

/-- Lookup after an erase. -/
theorem exLookup_erase (k k2 : Pos) : ∀ (l : List (Pos × Option Pos)),
    exLookup k (exErase k2 l) = if k = k2 then none else exLookup k l := by
  intro l
  induction l with
  | nil =>
    simp only [exErase, List.filter_nil, exLookup, alookup]
    split <;> rfl
  | cons kv rest ih =>
    by_cases h1 : kv.1 = k2
    · have hf : exErase k2 (kv :: rest) = exErase k2 rest := by
        simp [exErase, List.filter_cons, h1]
      rw [hf, ih]
      by_cases h2 : k = k2
      · simp [h2]
      · rw [if_neg h2, if_neg h2]
        have h3 : ¬ kv.1 = k := by rw [h1]; intro hc; exact h2 hc.symm
        simp [exLookup, alookup, h3]
    · have hf : exErase k2 (kv :: rest) = kv :: exErase k2 rest := by
        simp [exErase, List.filter_cons, h1]
      rw [hf]
      by_cases h3 : kv.1 = k
      · have h4 : ¬ k = k2 := by rw [← h3]; exact h1
        simp [exLookup, alookup, h3, h4]
      · simp only [exLookup, alookup, if_neg h3]
        exact ih

/-- The loop invariant behind the exit-conflict claim: every worklist
entry is a valid instruction, every recorded exit whose boundary is not
the first instruction of its block has the preceding instruction as its
frontier, and every deferred block has a valid entry instruction. -/
def ExInv (F : Func) (vp : List LlvmValue) (s : ExpSt) : Prop :=
  (∀ p ∈ s.work, validAt F vp p = true)
  ∧ (∀ k fr, exLookup k s.exits = some fr → 1 ≤ k.2 → fr = some (k.1, k.2 - 1))
  ∧ (∀ tb ∈ s.tryAgain, validAt F vp (tb, 0) = true)

/-- A valid head of a list contributes to leadingValid. -/
theorem leadingValid_pos (vp : List LlvmValue) (i : Instr) (tl : List Instr)
    (h : validInRegion vp i = true) : 1 ≤ leadingValid vp (i :: tl) := by
  simp [leadingValid, h]

/-- uniquePush of a valid position preserves the invariant and does not
touch the exits. -/
theorem uniquePush_inv (F : Func) (vp : List LlvmValue) (p : Pos) (s : ExpSt)
    (hv : validAt F vp p = true) (hI : ExInv F vp s) :
    ExInv F vp (uniquePush p s) ∧ (uniquePush p s).exits = s.exits := by
  obtain ⟨hA, hB, hD⟩ := hI
  unfold uniquePush
  by_cases hmem : p ∈ s.seen
  · rw [if_pos hmem]
    exact ⟨⟨hA, hB, hD⟩, rfl⟩
  · rw [if_neg hmem]
    refine ⟨⟨?_, hB, hD⟩, rfl⟩
    intro q hq
    rcases List.mem_append.mp hq with h2 | h2
    · exact hA q h2
    · rw [List.mem_singleton.mp h2]; exact hv

/-- Properties of the checked exit-recording site: the recorded boundary
maps to the recorded frontier, other boundaries are untouched, success
implies the prior entry (if any) held the same frontier, and the other
state components are untouched. -/
theorem recordExitChecked_lookup (target : Pos) (fr : Option Pos) (s s2 : ExpSt)
    (h : recordExitChecked target fr s = .ok s2) :
    (∀ k, exLookup k s2.exits = if target = k then some fr else exLookup k s.exits)
    ∧ (exLookup target s.exits = none ∨ exLookup target s.exits = some fr)
    ∧ s2.work = s.work ∧ s2.seen = s.seen ∧ s2.tryAgain = s.tryAgain
    ∧ s2.cand = s.cand := by
  unfold recordExitChecked at h
  cases hl : exLookup target s.exits with
  | some old =>
    rw [hl] at h
    dsimp only at h
    by_cases hne : old ≠ fr
    · rw [if_pos hne] at h; cases h
    · rw [if_neg hne] at h
      injection h with h
      subst h
      push_neg at hne
      exact ⟨fun k => alookup_cons k target fr s.exits, Or.inr (by rw [hne]),
        rfl, rfl, rfl, rfl⟩
  | none =>
    rw [hl] at h
    dsimp only at h
    injection h with h
    subst h
    exact ⟨fun k => alookup_cons k target fr s.exits, Or.inl rfl, rfl, rfl, rfl, rfl⟩

/-- One successor step preserves the invariant, and every exit recorded
before it is still recorded with the same frontier after it. -/
theorem processSucc_inv (F : Func) (vp : List LlvmValue) (fr : Option Pos)
    (s : ExpSt) (sb : Nat) (hI : ExInv F vp s) :
    ∀ s2, processSucc F vp fr s sb = .ok s2 →
      ExInv F vp s2
      ∧ (∀ k v, exLookup k s.exits = some v → exLookup k s2.exits = some v) := by
  obtain ⟨hA, hB, hD⟩ := hI
  intro s2 hok
  unfold processSucc at hok
  by_cases hv : validAt F vp (sb, 0) = true
  · rw [if_pos hv] at hok
    by_cases hm : ((predsOf F sb).filter (fun pb => decide (pb ∉ s.bbs))).isEmpty = true
    · rw [if_pos hm] at hok
      injection hok with hok
      subst hok
      obtain ⟨hI2, hex⟩ := uniquePush_inv F vp (sb, 0) s hv ⟨hA, hB, hD⟩
      refine ⟨hI2, ?_⟩
      intro k v hkv
      rw [hex]
      exact hkv
    · rw [if_neg hm] at hok
      have hmid : ExInv F vp { s with tryAgain := taInsert sb s.tryAgain } := by
        refine ⟨hA, hB, ?_⟩
        intro tb htb
        have htb2 : tb ∈ taInsert sb s.tryAgain := htb
        unfold taInsert at htb2
        by_cases hin : sb ∈ s.tryAgain
        · rw [if_pos hin] at htb2; exact hD tb htb2
        · rw [if_neg hin] at htb2
          rcases List.mem_append.mp htb2 with h2 | h2
          · exact hD tb h2
          · rw [List.mem_singleton.mp h2]; exact hv
      obtain ⟨hlook, hold, hw2, hseen2, hta2, hcand2⟩ :=
        recordExitChecked_lookup (sb, 0) fr _ s2 hok
      obtain ⟨hA2, hB2, hD2⟩ := hmid
      refine ⟨⟨?_, ?_, ?_⟩, ?_⟩
      · intro q hq; rw [hw2] at hq; exact hA2 q hq
      · intro k fr2 hk h1
        rw [hlook k] at hk
        by_cases hkt : ((sb, 0) : Pos) = k
        · rw [← hkt] at h1; simp at h1
        · rw [if_neg hkt] at hk
          exact hB2 k fr2 hk h1
      · intro tb htb; rw [hta2] at htb; exact hD2 tb htb
      · intro k v hkv
        rw [hlook k]
        by_cases hkt : ((sb, 0) : Pos) = k
        · rw [if_pos hkt]
          rw [← hkt] at hkv
          rcases hold with h2 | h2
          · rw [hkv] at h2; cases h2
          · rw [hkv] at h2; injection h2 with h2; rw [h2]
        · rw [if_neg hkt]; exact hkv
  · rw [if_neg hv] at hok
    obtain ⟨hlook, hold, hw2, hseen2, hta2, hcand2⟩ :=
      recordExitChecked_lookup (sb, 0) fr s s2 hok
    refine ⟨⟨?_, ?_, ?_⟩, ?_⟩
    · intro q hq; rw [hw2] at hq; exact hA q hq
    · intro k fr2 hk h1
      rw [hlook k] at hk
      by_cases hkt : ((sb, 0) : Pos) = k
      · rw [← hkt] at h1; simp at h1
      · rw [if_neg hkt] at hk
        exact hB k fr2 hk h1
    · intro tb htb; rw [hta2] at htb; exact hD tb htb
    · intro k v hkv
      rw [hlook k]
      by_cases hkt : ((sb, 0) : Pos) = k
      · rw [if_pos hkt]
        rw [← hkt] at hkv
        rcases hold with h2 | h2
        · rw [hkv] at h2; cases h2
        · rw [hkv] at h2; injection h2 with h2; rw [h2]
      · rw [if_neg hkt]; exact hkv

/-- The successor fold preserves the invariant and old exits. -/
theorem goSuccs_inv (F : Func) (vp : List LlvmValue) (fr : Option Pos) :
    ∀ (l : List Nat) (s : ExpSt), ExInv F vp s →
      ∀ s2, goSuccs F vp fr l s = .ok s2 →
        ExInv F vp s2
        ∧ (∀ k v, exLookup k s.exits = some v → exLookup k s2.exits = some v) := by
  intro l
  induction l with
  | nil =>
    intro s hI s2 hok
    injection hok with hok
    subst hok
    exact ⟨hI, fun k v hkv => hkv⟩
  | cons sb rest ih =>
    intro s hI s2 hok
    unfold goSuccs at hok
    cases hps : processSucc F vp fr s sb with
    | error e => rw [hps] at hok; cases hok
    | ok s1 =>
      rw [hps] at hok
      obtain ⟨hI1, hmono1⟩ := processSucc_inv F vp fr s sb hI s1 hps
      obtain ⟨hI2, hmono2⟩ := ih s1 hI1 s2 hok
      exact ⟨hI2, fun k v hkv => hmono2 k v (hmono1 k v hkv)⟩

/-- The retry step preserves the invariant, and every exit it leaves
recorded was recorded with the same frontier before it. -/
theorem tryAgainStep_inv (F : Func) (vp : List LlvmValue) (s : ExpSt)
    (hI : ExInv F vp s) :
    ∀ s2, tryAgainStep s = .ok s2 →
      ExInv F vp s2
      ∧ (∀ k w, exLookup k s2.exits = some w → exLookup k s.exits = some w) := by
  obtain ⟨hA, hB, hD⟩ := hI
  intro s2 hok
  unfold tryAgainStep at hok
  cases hta2 : s.tryAgain with
  | nil =>
    rw [hta2] at hok
    dsimp only at hok
    injection hok with hok
    subst hok
    exact ⟨⟨hA, hB, hD⟩, fun k w hkw => hkw⟩
  | cons tb rest =>
    rw [hta2] at hok
    dsimp only at hok
    by_cases hl : (exLookup (tb, 0) s.exits).isSome = true
    · rw [if_pos hl] at hok
      injection hok with hok
      subst hok
      have hvtb : validAt F vp (tb, 0) = true := hD tb (by rw [hta2]; simp)
      have hImid : ExInv F vp
          { s with exits := exErase (tb, 0) s.exits, tryAgain := taRemove tb (tb :: rest) } := by
        refine ⟨hA, ?_, ?_⟩
        · intro k fr hk h1
          have hk2 : exLookup k (exErase (tb, 0) s.exits) = some fr := hk
          rw [exLookup_erase k (tb, 0) s.exits] at hk2
          by_cases hkt : k = (tb, 0)
          · rw [if_pos hkt] at hk2; cases hk2
          · rw [if_neg hkt] at hk2
            exact hB k fr hk2 h1
        · intro x hx
          have hx2 : x ∈ taRemove tb (tb :: rest) := hx
          have hx3 : x ∈ tb :: rest := List.mem_of_mem_filter hx2
          rw [← hta2] at hx3
          exact hD x hx3
      obtain ⟨hI2, hex⟩ := uniquePush_inv F vp (tb, 0) _ hvtb hImid
      refine ⟨hI2, ?_⟩
      intro k w hkw
      rw [hex] at hkw
      have hkw2 : exLookup k (exErase (tb, 0) s.exits) = some w := hkw
      rw [exLookup_erase k (tb, 0) s.exits] at hkw2
      by_cases hkt : k = (tb, 0)
      · rw [if_pos hkt] at hkw2; cases hkw2
      · rw [if_neg hkt] at hkw2; exact hkw2
    · rw [if_neg hl] at hok
      cases hok

/-- A valid position names an instruction of an existing block that
validInRegion accepts. -/
theorem validAt_elim (F : Func) (vp : List LlvmValue) (p : Pos)
    (hv : validAt F vp p = true) :
    ∃ blk, blockOf F p.1 = some blk
      ∧ ∃ i, blk.insts[p.2]? = some i ∧ validInRegion vp i = true := by
  unfold validAt instrAt at hv
  cases hb : blockOf F p.1 with
  | none => rw [hb] at hv; dsimp only at hv; cases hv
  | some blk =>
    rw [hb] at hv
    dsimp only at hv
    cases hins : blk.insts[p.2]? with
    | none => rw [hins] at hv; dsimp only at hv; cases hv
    | some i =>
      rw [hins] at hv
      dsimp only at hv
      exact ⟨blk, rfl, i, hins, hv⟩

/-- From a valid walk start, the claim loop advances at least once. -/
theorem leadingValid_start (F : Func) (vp : List LlvmValue) (p : Pos)
    (blk : Block) (hb : blockOf F p.1 = some blk)
    (hv : validAt F vp p = true) :
    1 ≤ leadingValid vp (blk.insts.drop p.2) := by
  obtain ⟨blk2, hb2, i, hins, hvi⟩ := validAt_elim F vp p hv
  rw [hb] at hb2
  injection hb2 with hb2
  subst hb2
  have hd0 : (blk.insts.drop p.2)[0]? = some i := by
    rw [List.getElem?_drop]
    simpa using hins
  cases hd : blk.insts.drop p.2 with
  | nil => rw [hd] at hd0; cases hd0
  | cons a tl =>
    rw [hd] at hd0
    simp only [List.getElem?_cons_zero] at hd0
    injection hd0 with hd0
    subst hd0
    exact leadingValid_pos vp a tl hvi

/-- One iteration body run on a valid popped instruction preserves the
invariant, and never changes the frontier of a recorded exit to a
different value. -/
theorem expandBody_inv (F : Func) (vp : List LlvmValue) (rid : Nat)
    (p : Pos) (s : ExpSt) (hv : validAt F vp p = true) (hI : ExInv F vp s) :
    ∀ s2, expandBody F vp rid p s = .ok s2 →
      ExInv F vp s2
      ∧ (∀ k v w, exLookup k s.exits = some v → exLookup k s2.exits = some w → w = v) := by
  obtain ⟨hA, hB, hD⟩ := hI
  intro s2 hok
  unfold expandBody at hok
  cases hb : blockOf F p.1 with
  | none =>
    rw [hb] at hok
    dsimp only at hok
    injection hok with hok
    subst hok
    refine ⟨⟨hA, hB, hD⟩, ?_⟩
    intro k v w hv2 hw2
    have h3 := hv2.symm.trans hw2
    injection h3 with h3
    exact h3.symm
  | some blk =>
    rw [hb] at hok
    dsimp only at hok
    have hIs0 : ExInv F vp
        { s with cand := claimRange rid p.1 p.2 (leadingValid vp (blk.insts.drop p.2)) s.cand } :=
      ⟨hA, hB, hD⟩
    by_cases hstop : p.2 + leadingValid vp (blk.insts.drop p.2) = blk.insts.length
    · rw [if_pos hstop] at hok
      have hIs1 : ExInv F vp
          { s with cand := claimRange rid p.1 p.2 (leadingValid vp (blk.insts.drop p.2)) s.cand,
                   bbs := insert p.1 s.bbs } :=
        ⟨hA, hB, hD⟩
      cases hgs : goSuccs F vp (some (p.1, blk.insts.length - 1)) blk.succs
          { s with cand := claimRange rid p.1 p.2 (leadingValid vp (blk.insts.drop p.2)) s.cand,
                   bbs := insert p.1 s.bbs } with
      | error e => rw [hgs] at hok; cases hok
      | ok s1 =>
        rw [hgs] at hok
        obtain ⟨hI1, hfwd⟩ := goSuccs_inv F vp (some (p.1, blk.insts.length - 1))
          blk.succs _ hIs1 s1 hgs
        obtain ⟨hI2, hback⟩ := tryAgainStep_inv F vp s1 hI1 s2 hok
        refine ⟨hI2, ?_⟩
        intro k v w hv2 hw2
        have hmid : exLookup k s1.exits = some v := hfwd k v hv2
        have hmid2 : exLookup k s1.exits = some w := hback k w hw2
        have h3 := hmid.symm.trans hmid2
        injection h3 with h3
        exact h3.symm
    · rw [if_neg hstop] at hok
      have hge1 : 1 ≤ p.2 + leadingValid vp (blk.insts.drop p.2) := by
        have := leadingValid_start F vp p blk hb hv
        omega
      have hfr : (if p.2 + leadingValid vp (blk.insts.drop p.2) = 0 then none
          else some (p.1, p.2 + leadingValid vp (blk.insts.drop p.2) - 1))
          = some (p.1, p.2 + leadingValid vp (blk.insts.drop p.2) - 1) := by
        rw [if_neg (by omega)]
      rw [hfr] at hok
      have hIs1 : ExInv F vp
          { s with cand := claimRange rid p.1 p.2 (leadingValid vp (blk.insts.drop p.2)) s.cand,
                   exits := ((p.1, p.2 + leadingValid vp (blk.insts.drop p.2)),
                     some (p.1, p.2 + leadingValid vp (blk.insts.drop p.2) - 1)) :: s.exits } := by
        refine ⟨hA, ?_, hD⟩
        intro k fr hk h1
        have hk2 : exLookup k (((p.1, p.2 + leadingValid vp (blk.insts.drop p.2)),
            some (p.1, p.2 + leadingValid vp (blk.insts.drop p.2) - 1)) :: s.exits)
            = some fr := hk
        rw [exLookup_cons] at hk2
        by_cases hkt : ((p.1, p.2 + leadingValid vp (blk.insts.drop p.2)) : Pos) = k
        · rw [if_pos hkt] at hk2
          injection hk2 with hk2
          rw [← hk2, ← hkt]
        · rw [if_neg hkt] at hk2
          exact hB k fr hk2 h1
      obtain ⟨hI2, hback⟩ := tryAgainStep_inv F vp _ hIs1 s2 hok
      refine ⟨hI2, ?_⟩
      intro k v w hv2 hw2
      have hmid2 := hback k w hw2
      have hmid3 : exLookup k (((p.1, p.2 + leadingValid vp (blk.insts.drop p.2)),
          some (p.1, p.2 + leadingValid vp (blk.insts.drop p.2) - 1)) :: s.exits)
          = some w := hmid2
      rw [exLookup_cons] at hmid3
      by_cases hkt : ((p.1, p.2 + leadingValid vp (blk.insts.drop p.2)) : Pos) = k
      · rw [if_pos hkt] at hmid3
        injection hmid3 with hmid3
        have hval := hB k v hv2 (by rw [← hkt]; exact hge1)
        rw [← hmid3, hval, ← hkt]
      · rw [if_neg hkt] at hmid3
        have h3 := hv2.symm.trans hmid3
        injection h3 with h3
        exact h3.symm

/-- One whole iteration of the expandRegion loop preserves the invariant
and never changes the frontier of a recorded exit. -/
theorem iterStep_inv (F : Func) (vp : List LlvmValue) (rid : Nat) (s : ExpSt)
    (hI : ExInv F vp s) :
    ∀ s2, iterStep F vp rid s = .ok s2 →
      ExInv F vp s2
      ∧ (∀ k v w, exLookup k s.exits = some v → exLookup k s2.exits = some w → w = v) := by
  intro s2 hok
  unfold iterStep at hok
  cases hwk : s.work with
  | nil =>
    rw [hwk] at hok
    dsimp only at hok
    injection hok with hok
    subst hok
    refine ⟨hI, ?_⟩
    intro k v w hv2 hw2
    have h3 := hv2.symm.trans hw2
    injection h3 with h3
    exact h3.symm
  | cons p rest =>
    rw [hwk] at hok
    dsimp only at hok
    obtain ⟨hA, hB, hD⟩ := hI
    have hv : validAt F vp p = true := hA p (by rw [hwk]; simp)
    have hI2 : ExInv F vp { s with work := rest } := by
      refine ⟨?_, hB, hD⟩
      intro q hq
      exact hA q (by rw [hwk]; exact List.mem_cons_of_mem _ hq)
    exact expandBody_inv F vp rid p { s with work := rest } hv hI2 s2 hok

/-- The invariant holds after any number of iterations. -/
theorem iterN_inv (F : Func) (vp : List LlvmValue) (rid : Nat) :
    ∀ (k : Nat) (s : ExpSt), ExInv F vp s →
      ∀ s2, iterN F vp rid k s = .ok s2 → ExInv F vp s2 := by
  intro k
  induction k with
  | zero =>
    intro s hI s2 hok
    injection hok with hok
    subst hok
    exact hI
  | succ n ih =>
    intro s hI s2 hok
    unfold iterN at hok
    cases hst : iterStep F vp rid s with
    | error e => rw [hst] at hok; cases hok
    | ok s1 =>
      rw [hst] at hok
      exact ih s1 (iterStep_inv F vp rid s hI s1 hst).1 s2 hok

/-- C3: along any run of the expansion loop from a valid entry, no step
changes the recorded frontier of an exit boundary to a different value:
a boundary reached again with a different frontier can only abort (the
checked site), never silently overwrite (and the unchecked mid-block site
always rewrites the same frontier). -/
theorem exit_frontier_never_silently_overwritten (F : Func) (vp : List LlvmValue)
    (rid : Nat) (entry : Pos) (c0 : CandMap)
    (hentry : validAt F vp entry = true) (k : Nat) (s s2 : ExpSt)
    (h1 : iterN F vp rid k (initSt entry c0) = .ok s)
    (h2 : iterStep F vp rid s = .ok s2)
    (key : Pos) (v w : Option Pos)
    (hv : exLookup key s.exits = some v) (hw : exLookup key s2.exits = some w) :
    w = v := by
  have hI0 : ExInv F vp (initSt entry c0) := by
    refine ⟨?_, ?_, ?_⟩
    · intro p hp
      rw [List.mem_singleton.mp hp]
      exact hentry
    · intro k2 fr hk
      cases hk
    · intro tb htb
      cases htb
  have hIs := iterN_inv F vp rid k (initSt entry c0) hI0 s h1
  exact (iterStep_inv F vp rid s hIs s2 h2).2 key v w hv hw

/-- The state of exStraight after one iteration of the expansion loop. -/
def c3Run1 : ExpSt :=
  match iterN exStraight [gArg1] 0 1 (initSt (0, 0) (fun _ => none)) with
  | .ok s => s
  | .error _ => initSt (0, 0) (fun _ => none)

/-- The state of exStraight after one further iteration. -/
def c3Run2 : ExpSt :=
  match iterStep exStraight [gArg1] 0 c3Run1 with
  | .ok s => s
  | .error _ => c3Run1

/-- Witness for the exit-frontier theorem on exStraight: the mid-block
exit at (0, 1) keeps its frontier (0, 0) across a further iteration. -/
theorem exit_frontier_witness :
    (some ((0, 0) : Pos) : Option Pos) = some ((0, 0) : Pos) :=
  exit_frontier_never_silently_overwritten exStraight [gArg1] 0 (0, 0)
    (fun _ => none) (by decide) 1 c3Run1 c3Run2 rfl rfl
    (0, 1) (some (0, 0)) (some (0, 0)) rfl rfl

/-! ### Region validity: refinement and ownership closure -/

/-- The region validity predicate as the specification states it: accept
when the instruction does not touch memory; or when it has a provenance
base in valid_ptrs or classified symmetric-replicated, static or
constant; or when it has no provenance and is a call or invoke of a
function marked unbound or free of memory access. -/
def regionValiditySpec (vp : List LlvmValue) (i : Instr) : Bool :=
  !mayReadOrWriteMemory i
  || (match getProvenance i with
      | some p => decide (p ∈ vp) || isSymmetricPtr p || isStatic p || isConst p
      | none => false)
  || ((getProvenance i).isNone && isCallOrInvoke i && isMarkedCall i)

/-- The code predicate validInRegion coincides with the specification
predicate. -/
theorem validInRegion_eq_spec (vp : List LlvmValue) (i : Instr) :
    validInRegion vp i = regionValiditySpec vp i := by
  cases i with
  | load p =>
    simp [validInRegion, regionValiditySpec, mayReadOrWriteMemory, getProvenance,
      isCallOrInvoke, isMarkedCall]
  | store p =>
    simp [validInRegion, regionValiditySpec, mayReadOrWriteMemory, getProvenance,
      isCallOrInvoke, isMarkedCall]
  | call t c =>
    cases t <;> cases c <;>
      simp [validInRegion, regionValiditySpec, mayReadOrWriteMemory, getProvenance,
        isCallOrInvoke, isMarkedCall]
  | otherMemOp =>
    simp [validInRegion, regionValiditySpec, mayReadOrWriteMemory, getProvenance,
      isCallOrInvoke, isMarkedCall]
  | pureOp =>
    simp [validInRegion, regionValiditySpec, mayReadOrWriteMemory, getProvenance,
      isCallOrInvoke, isMarkedCall]

/-- Positions below leadingValid hold accepted instructions. -/
theorem leadingValid_elim (vp : List LlvmValue) :
    ∀ (l : List Instr) (t : Nat), t < leadingValid vp l →
      ∃ i, l[t]? = some i ∧ validInRegion vp i = true := by
  intro l
  induction l with
  | nil => intro t h; simp [leadingValid] at h
  | cons i rest ih =>
    intro t h
    by_cases hvi : validInRegion vp i = true
    · simp only [leadingValid, if_pos hvi] at h
      cases t with
      | zero => exact ⟨i, by simp, hvi⟩
      | succ t2 =>
        obtain ⟨i2, hi2, hv2⟩ := ih t2 (by omega)
        exact ⟨i2, by simpa using hi2, hv2⟩
    · rw [leadingValid, if_neg hvi] at h
      omega

/-- Every position claimed by claimRange is kept or became owned by rid
with a valid instruction. -/
theorem claimRange_cases (F : Func) (vp : List LlvmValue) (rid b j : Nat)
    (blk : Block) (hb : blockOf F b = some blk) (c : CandMap) (q : Pos) :
    claimRange rid b j (leadingValid vp (blk.insts.drop j)) c q = c q
    ∨ (claimRange rid b j (leadingValid vp (blk.insts.drop j)) c q = some rid
        ∧ validAt F vp q = true) := by
  unfold claimRange
  by_cases hq : q.1 = b ∧ j ≤ q.2 ∧ q.2 < j + leadingValid vp (blk.insts.drop j)
  · rw [if_pos hq]
    refine Or.inr ⟨rfl, ?_⟩
    obtain ⟨hq1, hq2, hq3⟩ := hq
    obtain ⟨i, hi, hvi⟩ := leadingValid_elim vp (blk.insts.drop j) (q.2 - j) (by omega)
    rw [List.getElem?_drop] at hi
    have hj : j + (q.2 - j) = q.2 := by omega
    rw [hj] at hi
    unfold validAt instrAt
    rw [hq1, hb]
    dsimp only
    rw [hi]
    exact hvi
  · rw [if_neg hq]
    exact Or.inl rfl

/-- uniquePush leaves the candidate map untouched. -/
theorem uniquePush_cand (p : Pos) (s : ExpSt) : (uniquePush p s).cand = s.cand := by
  unfold uniquePush
  split <;> rfl

/-- processSucc leaves the candidate map untouched. -/
theorem processSucc_cand (F : Func) (vp : List LlvmValue) (fr : Option Pos)
    (s : ExpSt) (sb : Nat) (s2 : ExpSt) (h : processSucc F vp fr s sb = .ok s2) :
    s2.cand = s.cand := by
  unfold processSucc at h
  by_cases hv : validAt F vp (sb, 0) = true
  · rw [if_pos hv] at h
    by_cases hm : ((predsOf F sb).filter (fun pb => decide (pb ∉ s.bbs))).isEmpty = true
    · rw [if_pos hm] at h
      injection h with h
      subst h
      exact uniquePush_cand (sb, 0) s
    · rw [if_neg hm] at h
      exact (recordExitChecked_lookup (sb, 0) fr _ s2 h).2.2.2.2.2
  · rw [if_neg hv] at h
    exact (recordExitChecked_lookup (sb, 0) fr s s2 h).2.2.2.2.2

/-- The successor fold leaves the candidate map untouched. -/
theorem goSuccs_cand (F : Func) (vp : List LlvmValue) (fr : Option Pos) :
    ∀ (l : List Nat) (s s2 : ExpSt), goSuccs F vp fr l s = .ok s2 →
      s2.cand = s.cand := by
  intro l
  induction l with
  | nil =>
    intro s s2 h
    injection h with h
    subst h
    rfl
  | cons sb rest ih =>
    intro s s2 h
    unfold goSuccs at h
    cases hps : processSucc F vp fr s sb with
    | error e => rw [hps] at h; cases h
    | ok s1 =>
      rw [hps] at h
      exact (ih s1 s2 h).trans (processSucc_cand F vp fr s sb s1 hps)

/-- The retry step leaves the candidate map untouched. -/
theorem tryAgainStep_cand (s s2 : ExpSt) (h : tryAgainStep s = .ok s2) :
    s2.cand = s.cand := by
  unfold tryAgainStep at h
  cases hta : s.tryAgain with
  | nil =>
    rw [hta] at h
    dsimp only at h
    injection h with h
    subst h
    rfl
  | cons tb rest =>
    rw [hta] at h
    dsimp only at h
    by_cases hl : (exLookup (tb, 0) s.exits).isSome = true
    · rw [if_pos hl] at h
      injection h with h
      subst h
      exact uniquePush_cand (tb, 0) _
    · rw [if_neg hl] at h
      cases h

/-- The body of one iteration changes the candidate map only by claiming
positions that hold instructions accepted by validInRegion. -/
theorem expandBody_cand (F : Func) (vp : List LlvmValue) (rid : Nat)
    (p : Pos) (s s2 : ExpSt) (h : expandBody F vp rid p s = .ok s2) :
    ∀ q, s2.cand q = s.cand q
      ∨ (s2.cand q = some rid ∧ validAt F vp q = true) := by
  intro q
  unfold expandBody at h
  cases hb : blockOf F p.1 with
  | none =>
    rw [hb] at h
    dsimp only at h
    injection h with h
    subst h
    exact Or.inl rfl
  | some blk =>
    rw [hb] at h
    dsimp only at h
    by_cases hstop : p.2 + leadingValid vp (blk.insts.drop p.2) = blk.insts.length
    · rw [if_pos hstop] at h
      cases hgs : goSuccs F vp (some (p.1, blk.insts.length - 1)) blk.succs
          { s with cand := claimRange rid p.1 p.2 (leadingValid vp (blk.insts.drop p.2)) s.cand,
                   bbs := insert p.1 s.bbs } with
      | error e => rw [hgs] at h; cases h
      | ok s1 =>
        rw [hgs] at h
        have hc1 := goSuccs_cand F vp (some (p.1, blk.insts.length - 1)) blk.succs _ s1 hgs
        have hc2 := tryAgainStep_cand s1 s2 h
        have hc3 : s2.cand q
            = claimRange rid p.1 p.2 (leadingValid vp (blk.insts.drop p.2)) s.cand q := by
          rw [hc2, hc1]
        rw [hc3]
        exact claimRange_cases F vp rid p.1 p.2 blk hb s.cand q
    · rw [if_neg hstop] at h
      have hc2 := tryAgainStep_cand _ s2 h
      have hc3 : s2.cand q
          = claimRange rid p.1 p.2 (leadingValid vp (blk.insts.drop p.2)) s.cand q := by
        rw [hc2]
      rw [hc3]
      exact claimRange_cases F vp rid p.1 p.2 blk hb s.cand q

/-- The whole expansion loop changes the candidate map only by claiming
valid positions for the region rid. -/
theorem expandLoop_cand (F : Func) (vp : List LlvmValue) (rid : Nat) :
    ∀ (fuel : Nat) (s s2 : ExpSt), expandLoop F vp rid fuel s = .ok s2 →
      ∀ q, s2.cand q = s.cand q
        ∨ (s2.cand q = some rid ∧ validAt F vp q = true) := by
  intro fuel
  induction fuel with
  | zero =>
    intro s s2 h q
    unfold expandLoop at h
    cases hwk : s.work with
    | nil =>
      rw [hwk] at h
      dsimp only at h
      injection h with h
      subst h
      exact Or.inl rfl
    | cons p rest => rw [hwk] at h; dsimp only at h; cases h
  | succ f ih =>
    intro s s2 h q
    unfold expandLoop at h
    cases hwk : s.work with
    | nil =>
      rw [hwk] at h
      dsimp only at h
      injection h with h
      subst h
      exact Or.inl rfl
    | cons p rest =>
      rw [hwk] at h
      dsimp only at h
      cases hbd : expandBody F vp rid p { s with work := rest } with
      | error e => rw [hbd] at h; cases h
      | ok s1 =>
        rw [hbd] at h
        rcases ih s1 s2 h q with h2 | h2
        · rcases expandBody_cand F vp rid p { s with work := rest } s1 hbd q with h3 | h3
          · exact Or.inl (h2.trans h3)
          · exact Or.inr ⟨h2.trans h3.1, h3.2⟩
        · exact Or.inr h2

/-- The driver-level ownership invariant: every owned position is owned
by a created region and is valid against that region valid_ptrs (the
singleton of its target pointer). -/
def CandInv (F : Func) (regs : List (Nat × LlvmValue)) (c : CandMap) : Prop :=
  ∀ q r, c q = some r → ∃ tgt, (r, tgt) ∈ regs ∧ validAt F [tgt] q = true

/-- Processing one anchor preserves the ownership invariant. -/
theorem processAnchor_candInv (F : Func) (st st2 : DrSt)
    (a : Pos) (h : processAnchor F st a = .ok st2)
    (hI : CandInv F st.regs st.cand) : CandInv F st2.regs st2.cand := by
  unfold processAnchor at h
  cases hg : getProvAt F a with
  | none =>
    rw [hg] at h
    dsimp only at h
    injection h with h
    subst h
    exact hI
  | some p =>
    rw [hg] at h
    dsimp only at h
    by_cases hclaimed : (st.cand a).isSome
    · rw [if_pos hclaimed] at h
      injection h with h
      subst h
      exact hI
    · rw [if_neg hclaimed] at h
      by_cases hglob : isGlobalPtr p = true
      · rw [if_pos hglob] at h
        cases hexp : expandLoop F [p] st.next (fuelFor F) (initSt a st.cand) with
        | error e => rw [hexp] at h; cases h
        | ok es =>
          rw [hexp] at h
          injection h with h
          subst h
          intro q r hqr
          have hqr2 : es.cand q = some r := hqr
          rcases expandLoop_cand F [p] st.next (fuelFor F) (initSt a st.cand) es hexp q with h2 | h2
          · have h3 : st.cand q = some r := by
              have h5 : es.cand q = st.cand q := h2
              rw [← h5]; exact hqr2
            obtain ⟨tgt, hmem, hval⟩ := hI q r h3
            exact ⟨tgt, List.mem_append_left _ hmem, hval⟩
          · have h3 : r = st.next := Option.some.inj (hqr2.symm.trans h2.1)
            refine ⟨p, ?_, h2.2⟩
            show (r, p) ∈ st.regs ++ [(st.next, p)]
            rw [h3]
            exact List.mem_append_right _ (by simp)
      · rw [if_neg hglob] at h
        injection h with h
        subst h
        exact hI

/-- The whole anchor loop preserves the ownership invariant. -/
theorem processAnchors_candInv (F : Func) :
    ∀ (l : List Pos) (st st2 : DrSt), processAnchors F l st = .ok st2 →
      CandInv F st.regs st.cand → CandInv F st2.regs st2.cand := by
  intro l
  induction l with
  | nil =>
    intro st st2 h hI
    injection h with h
    subst h
    exact hI
  | cons a rest ih =>
    intro st st2 h hI
    unfold processAnchors at h
    cases hpa : processAnchor F st a with
    | error e => rw [hpa] at h; cases h
    | ok st1 =>
      rw [hpa] at h
      exact ih st1 st2 h (processAnchor_candInv F st st1 a hpa hI)

/-- C5: validInRegion accepts exactly what the specification validity
predicate accepts, and after a completed driver run every instruction
claimed by a region is valid against that region valid_ptrs (seeded with
its target base). -/
theorem region_validity_closure (F : Func) (anchors : List Pos) (st2 : DrSt)
    (h : processAnchors F anchors initDr = .ok st2) :
    (∀ (vp : List LlvmValue) (i : Instr), validInRegion vp i = regionValiditySpec vp i)
    ∧ ∀ q r, st2.cand q = some r →
        ∃ tgt, (r, tgt) ∈ st2.regs ∧ validAt F [tgt] q = true := by
  refine ⟨validInRegion_eq_spec, ?_⟩
  have hI0 : CandInv F initDr.regs initDr.cand := by
    intro q r hqr
    cases hqr
  exact processAnchors_candInv F anchors initDr st2 h hI0

/-- The driver state after processing the two anchors of exMerge. -/
def drRunFinal : DrSt :=
  match processAnchors exMerge (analyzeProvenance exMerge).2 initDr with
  | .ok st => st
  | .error _ => initDr

/-- Witness for the validity closure on the completed exMerge run: the
overlap position (2, 0) is owned by region 1 and valid against the target
of region 1. -/
theorem region_validity_closure_witness :
    validInRegion [gArg1] .pureOp = regionValiditySpec [gArg1] .pureOp
    ∧ ∃ tgt, (1, tgt) ∈ drRunFinal.regs ∧ validAt exMerge [tgt] (2, 0) = true := by
  have h := region_validity_closure exMerge (analyzeProvenance exMerge).2 drRunFinal rfl
  exact ⟨h.1 [gArg1] .pureOp, h.2 (2, 0) 1 rfl⟩

/-! ### Exit dispatch and output capture in extractRegion -/

/-- The per-exit data extractRegion uses after boundary materialization
(lines 394 to 433): the block holding the boundary instruction (the
switch target), the original block of the frontier instruction, and its
clone in the new function. -/
structure ExitRec where
  afterBlock : Nat
  oldPredBlock : Nat
  predCloneBlock : Nat
deriving DecidableEq, Repr

/-- The switch cases built by the exit loop (lines 397 to 418): exit_id
starts at startId and increments per exit in iteration order; each code is
materialized as an i16 constant (hence the reduction modulo 2 to the 16)
and routed to the block of the boundary instruction. -/
def exitSwitchCases (startId : Nat) : List ExitRec → List (Nat × Nat)
  | [] => []
  | e :: rest => (startId % 65536, e.afterBlock) :: exitSwitchCases (startId + 1) rest

/-- A phi node in an exit block: its incoming (block, value) pairs. -/
structure PhiNode where
  incoming : List (Nat × Nat)
deriving DecidableEq, Repr

/-- The phi fix-up loop of lines 421 to 427: replace incoming blocks equal
to the cloned predecessor with the dispatch block.  (The cloned
predecessor lives in the new function, so exit-block phis never reference
it and this loop is inert.) -/
def phiSetIncomingLoop (bbPred bbCall : Nat) (phi : PhiNode) : PhiNode :=
  ⟨phi.incoming.map (fun e => if e.1 = bbPred then (bbCall, e.2) else e)⟩

/-- The effect on a phi node of replaceAllUsesWith on the original
frontier block (line 429): every incoming reference to it now names the
dispatch block. -/
def blockRAUWPhi (oldB newB : Nat) (phi : PhiNode) : PhiNode :=
  ⟨phi.incoming.map (fun e => if e.1 = oldB then (newB, e.2) else e)⟩

/-- The whole phi rewrite an exit-block phi undergoes for one exit. -/
def exitPhiRewrite (e : ExitRec) (bbCall : Nat) (phi : PhiNode) : PhiNode :=
  blockRAUWPhi e.oldPredBlock bbCall (phiSetIncomingLoop e.predCloneBlock bbCall phi)

/-- The codes of the switch cases from a start id within range are the
consecutive integers. -/
theorem exitSwitchCases_fst : ∀ (l : List ExitRec) (startId : Nat),
    startId + l.length ≤ 65536 →
    (exitSwitchCases startId l).map Prod.fst = List.range' startId l.length := by
  intro l
  induction l with
  | nil => intro k h; simp [exitSwitchCases]
  | cons e rest ih =>
    intro k h
    simp only [exitSwitchCases, List.map_cons, List.length_cons] at *
    rw [Nat.mod_eq_of_lt (by omega), ih (k + 1) (by omega), List.range'_succ]

/-- The i-th switch case routes code i plus the start id to the boundary
block of the i-th exit. -/
theorem exitSwitchCases_getElem : ∀ (l : List ExitRec) (startId i : Nat),
    (exitSwitchCases startId l)[i]?
      = (l[i]?).map (fun e => ((startId + i) % 65536, e.afterBlock)) := by
  intro l
  induction l with
  | nil => intro k i; simp [exitSwitchCases]
  | cons e rest ih =>
    intro k i
    cases i with
    | zero => simp [exitSwitchCases]
    | succ i2 =>
      simp only [exitSwitchCases, List.getElem?_cons_succ]
      rw [ih (k + 1) i2]
      have h2 : k + (i2 + 1) = (k + 1) + i2 := by omega
      rw [h2]

/-- C7: the exit loop assigns the codes 0 to n-1 in exit iteration order,
one distinct code per exit; the caller-side switch routes code i to the
block holding the i-th exit boundary instruction; and after the rewrite,
every phi incoming that referenced the original frontier block references
the dispatch block instead (the fresh clone block is referenced by no
exit-block phi). -/
theorem exit_dispatch_bijection (exits : List ExitRec) (hn : exits.length ≤ 65536) :
    ((exitSwitchCases 0 exits).map Prod.fst = List.range exits.length)
    ∧ (∀ i, i < exits.length →
        (exitSwitchCases 0 exits)[i]? = (exits[i]?).map (fun e => (i, e.afterBlock)))
    ∧ (∀ (e : ExitRec) (bbCall : Nat) (phi : PhiNode),
        e.predCloneBlock ∉ phi.incoming.map Prod.fst →
        ∀ entry ∈ phi.incoming, entry.1 = e.oldPredBlock →
          (bbCall, entry.2) ∈ (exitPhiRewrite e bbCall phi).incoming) := by
  refine ⟨?_, ?_, ?_⟩
  · rw [exitSwitchCases_fst exits 0 (by omega), List.range_eq_range']
  · intro i hi
    rw [exitSwitchCases_getElem exits 0 i]
    have h2 : (0 + i) % 65536 = i := by
      rw [Nat.zero_add]
      exact Nat.mod_eq_of_lt (by omega)
    rw [h2]
  · intro e bbCall phi hfresh entry hmem hold
    have hne : entry.1 ≠ e.predCloneBlock := by
      intro hc
      exact hfresh (hc ▸ List.mem_map_of_mem Prod.fst hmem)
    have hres : (exitPhiRewrite e bbCall phi).incoming
        = (phi.incoming.map
            (fun e2 => if e2.1 = e.predCloneBlock then (bbCall, e2.2) else e2)).map
            (fun e2 => if e2.1 = e.oldPredBlock then (bbCall, e2.2) else e2) := rfl
    rw [hres, List.map_map]
    have himg : ((fun e2 : Nat × Nat => if e2.1 = e.oldPredBlock then (bbCall, e2.2) else e2) ∘
        (fun e2 : Nat × Nat => if e2.1 = e.predCloneBlock then (bbCall, e2.2) else e2)) entry
        = (bbCall, entry.2) := by
      simp only [Function.comp]
      rw [if_neg hne, if_pos hold]
    rw [← himg]
    exact List.mem_map_of_mem _ hmem

/-- Witness for the exit-dispatch theorem on a concrete two-exit
region. -/
theorem exit_dispatch_bijection_witness :
    ((exitSwitchCases 0 [⟨5, 3, 100⟩, ⟨6, 4, 101⟩]).map Prod.fst = List.range 2)
    ∧ ((exitSwitchCases 0 [⟨5, 3, 100⟩, ⟨6, 4, 101⟩])[1]?
        = ([(⟨5, 3, 100⟩ : ExitRec), ⟨6, 4, 101⟩][1]?).map (fun e => (1, e.afterBlock)))
    ∧ ((7, 9) ∈ (exitPhiRewrite ⟨5, 3, 100⟩ 7 ⟨[(3, 9), (2, 8)]⟩).incoming) := by
  have h := exit_dispatch_bijection [⟨5, 3, 100⟩, ⟨6, 4, 101⟩] (by decide)
  exact ⟨h.1, h.2.1 1 (by decide),
    h.2.2 ⟨5, 3, 100⟩ 7 ⟨[(3, 9), (2, 8)]⟩ (by decide) (3, 9) (by decide) rfl⟩

/-- The output-store loop of extractRegion (lines 345 to 353): one store
is created per output value, inserted immediately before the terminator
of the cloned block containing the (remapped) value, i.e. the defining
block of the output in the clone. -/
def outputStores (outputs : List Nat) (cloneDefBlock : Nat → Nat) : List (Nat × Nat) :=
  outputs.map (fun v => (v, cloneDefBlock v))

/-- The claim under test: at every exit point (the terminator of each
frontier block in the clone), every live output value has a store into
its OutStruct field placed immediately before it. -/
def storesCoverEveryExit (stores : List (Nat × Nat)) (outputs : List Nat)
    (exitFrontierBlocks : List Nat) : Prop :=
  ∀ b ∈ exitFrontierBlocks, ∀ v ∈ outputs, (v, b) ∈ stores

/-- The cloned defining block of the single output in the two-exit
counterexample region: output 7 is defined in block 10, and the region
also exits from block 11. -/
def exDefBlock : Nat → Nat := fun v => if v = 7 then 10 else 0

/-- C6 counterexample: in a region with an output defined in one frontier
block (10) and a second exit leaving from another block (11), the
output-store loop places exactly one store, at the end of block 10; no
store of the output precedes the exit in block 11, so the outputs are not
stored immediately before each exit. -/
theorem output_stores_miss_second_exit :
    ¬ storesCoverEveryExit (outputStores [7] exDefBlock) [7] [10, 11] := by
  intro h
  have h2 := h 11 (by simp) 7 (by simp)
  simp [outputStores, exDefBlock] at h2

/-- C6 amended: the outlined unit stores each output exactly once,
immediately before the terminator of the cloned block that defines it
(not once per exit); on exits reached after the defining block the
OutStruct field therefore holds the value, but no per-exit stores are
emitted. -/
theorem output_stores_once_at_defining_block (outputs : List Nat) (f : Nat → Nat) :
    (outputStores outputs f).length = outputs.length
    ∧ (∀ v ∈ outputs, (v, f v) ∈ outputStores outputs f)
    ∧ (∀ pr ∈ outputStores outputs f, pr.2 = f pr.1 ∧ pr.1 ∈ outputs) := by
  refine ⟨List.length_map outputs _, ?_, ?_⟩
  · intro v hv
    exact List.mem_map_of_mem _ hv
  · intro pr hpr
    obtain ⟨v, hv, heq⟩ := List.mem_map.mp hpr
    rw [← heq]
    exact ⟨rfl, hv⟩

/-- Witness for the amended output-store statement on the counterexample
region. -/
theorem output_stores_once_witness :
    (outputStores [7] exDefBlock).length = ([7] : List Nat).length
    ∧ (7, exDefBlock 7) ∈ outputStores [7] exDefBlock
    ∧ (((7, 10) : Nat × Nat).2 = exDefBlock ((7, 10) : Nat × Nat).1
        ∧ ((7, 10) : Nat × Nat).1 ∈ ([7] : List Nat)) := by
  have h := output_stores_once_at_defining_block [7] exDefBlock
  exact ⟨h.1, h.2.1 7 (by simp), h.2.2 (7, 10) (by simp [outputStores, exDefBlock])⟩

/-! ### C1: the deferred-retry re-enqueue ignores the sealed-predecessor
check -/

/-- C1 (code bug witness run): growing a region from the anchor in block 0
of exMerge, the merge block 2 is deferred to try_again because its
predecessor block 1 is not sealed; the retry step nevertheless erases its
exit record and re-enqueues it (the all-predecessors-sealed flag computed
at line 195 is dead), so the region claims both instructions of block 2
even though block 1 is never sealed, and finishes with no recorded exit.
The claim says a deferred block whose predecessors are not all sealed is
never re-enqueued. -/
theorem exMerge_retry_reenqueues_unsealed :
    (match expandLoop exMerge [gArg1] 0 (fuelFor exMerge)
        (initSt (0, 0) (fun _ => none)) with
     | .ok s => some (s.cand (2, 0), s.cand (2, 1), decide (1 ∈ s.bbs),
                      decide (2 ∈ s.bbs), s.exits)
     | .error _ => none)
    = some (some 0, some 0, false, true, []) := by
  rfl

/-! ### C2: instruction-level disjointness fails -/

/-- C2 counterexample: on exMerge the driver collects the two anchors
(0,0) and (1,0); growing region 0 from (0,0) claims instruction (2,0) of
the merge block, and growing region 1 from (1,0) afterwards claims the
same instruction again, overwriting the owner recorded in the shared
candidate map.  Two regions grown from distinct anchors therefore do not
own disjoint instruction sets. -/
theorem exMerge_regions_overlap :
    (analyzeProvenance exMerge).2 = [(0, 0), (1, 0)]
    ∧ (match processAnchor exMerge initDr (0, 0) with
       | .ok st1 =>
         match processAnchor exMerge st1 (1, 0) with
         | .ok st2 => some (st1.cand (2, 0), st2.cand (2, 0))
         | .error _ => none
       | .error _ => none)
      = some (some 0, some 1) := by
  exact ⟨rfl, rfl⟩

/-- C2 amended: the ownership check the driver does perform is at anchor
granularity: an anchor that is already claimed by a previously grown
region never seeds a new region (the driver leaves the state untouched);
disjointness of whole instruction sets is not guaranteed. -/
theorem anchor_already_claimed_is_skipped (F : Func) (st : DrSt) (a : Pos)
    (r : Nat) (h : st.cand a = some r) :
    processAnchor F st a = .ok st := by
  unfold processAnchor
  cases hg : getProvAt F a with
  | none => rfl
  | some p => simp [h]

/-- Witness for the amended C2 statement at a concrete claimed anchor. -/
theorem anchor_already_claimed_is_skipped_witness :
    processAnchor exMerge
      { cand := fun p => if p = (0, 0) then some 3 else none,
        regs := [], next := 7, created := [] } (0, 0)
    = .ok { cand := fun p => if p = (0, 0) then some 3 else none,
            regs := [], next := 7, created := [] } :=
  anchor_already_claimed_is_skipped exMerge _ (0, 0) 3 (by simp)

/-! ### C4: the provenance walk on address computations -/

/-- C4: the four behaviours of the provenance walk on an address
computation: an in-bounds gep with indices at a global-remote base whose
first index is not literal zero is its own root; with a literal-zero
first index at a global-remote base the walk recurses on the base; at a
non-global base the walk recurses regardless of indices; a non-in-bounds
gep is its own root. -/
theorem search_gep_cases :
    ∀ (ty : LlvmTy) (z : Bool) (base : LlvmValue),
      (pointerAddrSpace (tyOf base) = GLOBAL_SPACE → z = false →
        search (.gep ty true true z base) = .gep ty true true z base)
      ∧ (pointerAddrSpace (tyOf base) = GLOBAL_SPACE → z = true →
        search (.gep ty true true z base) = search base)
      ∧ (pointerAddrSpace (tyOf base) ≠ GLOBAL_SPACE →
        ∀ (hi z2 : Bool), search (.gep ty true hi z2 base) = search base)
      ∧ (∀ (hi z2 : Bool), search (.gep ty false hi z2 base) = .gep ty false hi z2 base) := by
  intro ty z base
  refine ⟨?_, ?_, ?_, ?_⟩
  · intro h hz; subst hz; simp [search, h]
  · intro h hz; subst hz; simp [search, h]
  · intro h hi z2; simp [search, h]
  · intro hi z2; simp [search]

/-- Witness for the provenance-walk cases at concrete values. -/
theorem search_gep_cases_witness :
    search (.gep .nonPtr true true false (.root (.ptr GLOBAL_SPACE) .argument 7))
      = .gep .nonPtr true true false (.root (.ptr GLOBAL_SPACE) .argument 7)
    ∧ search (.gep .nonPtr true true true (.root (.ptr GLOBAL_SPACE) .argument 7))
      = .root (.ptr GLOBAL_SPACE) .argument 7
    ∧ search (.gep .nonPtr true true false (.root (.ptr 0) .argument 7))
      = .root (.ptr 0) .argument 7
    ∧ search (.gep .nonPtr false true false (.root (.ptr GLOBAL_SPACE) .argument 7))
      = .gep .nonPtr false true false (.root (.ptr GLOBAL_SPACE) .argument 7) := by
  refine ⟨?_, ?_, ?_, ?_⟩
  · exact (search_gep_cases .nonPtr false (.root (.ptr GLOBAL_SPACE) .argument 7)).1
      (by decide) rfl
  · exact ((search_gep_cases .nonPtr true (.root (.ptr GLOBAL_SPACE) .argument 7)).2.1
      (by decide) rfl).trans rfl
  · exact (((search_gep_cases .nonPtr false (.root (.ptr 0) .argument 7)).2.2.1
      (by decide)) true false).trans rfl
  · exact ((search_gep_cases .nonPtr false (.root (.ptr GLOBAL_SPACE) .argument 7)).2.2.2)
      true false

/-! ### C8: which anchors seed regions -/

/-- C8: processing one collected anchor creates (and grows) a region if
and only if the anchor is not already owned in the candidate map and its
provenance is a global-remote pointer; an anchor whose provenance is
stack-local (an alloca or argument) and not global-remote leaves the
driver state unchanged. -/
theorem driver_creates_region_iff (F : Func) (st : DrSt) (a : Pos)
    (ha : a ∈ (analyzeProvenance F).2) :
    (∀ st2, processAnchor F st a = .ok st2 →
      (st2.created = st.created ++ [(a, st.next)] ↔
        st.cand a = none ∧ ∃ p, getProvAt F a = some p ∧ isGlobalPtr p = true))
    ∧ (∀ p, getProvAt F a = some p → isStack p = true → isGlobalPtr p = false →
        processAnchor F st a = .ok st) := by
  constructor
  · intro st2 hok
    unfold processAnchor at hok
    cases hg : getProvAt F a with
    | none =>
      rw [hg] at hok
      dsimp only at hok
      cases hok
      constructor
      · intro hc
        have h2 : st.created.length = (st.created ++ [(a, st.next)]).length := by rw [← hc]
        simp at h2
      · rintro ⟨-, p, hp, -⟩
        exact absurd hp (by simp)
    | some p =>
      rw [hg] at hok
      dsimp only at hok
      by_cases hclaimed : (st.cand a).isSome
      · rw [if_pos hclaimed] at hok
        cases hok
        constructor
        · intro hc
          have h2 : st.created.length = (st.created ++ [(a, st.next)]).length := by rw [← hc]
          simp at h2
        · rintro ⟨hnone, -⟩
          rw [hnone] at hclaimed
          simp at hclaimed
      · rw [if_neg hclaimed] at hok
        by_cases hg2 : isGlobalPtr p = true
        · rw [if_pos hg2] at hok
          cases hexp : expandLoop F [p] st.next (fuelFor F) (initSt a st.cand) with
          | error e => rw [hexp] at hok; cases hok
          | ok es =>
            rw [hexp] at hok
            cases hok
            simp only [true_iff]
            exact ⟨Option.not_isSome_iff_eq_none.mp hclaimed, p, rfl, hg2⟩
        · rw [if_neg hg2] at hok
          cases hok
          constructor
          · intro hc
            have h2 : st.created.length = (st.created ++ [(a, st.next)]).length := by rw [← hc]
            simp at h2
          · rintro ⟨-, q, hq, hqg⟩
            have hqp : q = p := by injection hq with h2; exact h2.symm
            rw [hqp] at hqg
            exact absurd hqg hg2
  · intro p hp hstack hnotg
    unfold processAnchor
    rw [hp]
    dsimp only
    by_cases hclaimed : (st.cand a).isSome
    · rw [if_pos hclaimed]
    · rw [if_neg hclaimed, if_neg (by rw [hnotg]; exact Bool.false_ne_true)]

/-- Witness for the driver creation condition: on exMerge, anchor (0,0)
is unclaimed with global provenance, and processing it from the fresh
driver state does create region 0. -/
theorem driver_creates_region_iff_witness :
    (match processAnchor exMerge initDr (0, 0) with
     | .ok st2 => st2.created
     | .error _ => []) = [((0, 0), 0)] := by
  have h := (driver_creates_region_iff exMerge initDr (0, 0) (by decide)).1
  cases hok : processAnchor exMerge initDr (0, 0) with
  | error e =>
    have hb : (match processAnchor exMerge initDr (0, 0) with
               | .ok _ => true | .error _ => false) = true := rfl
    rw [hok] at hb
    cases hb
  | ok st2 =>
    have h2 := (h st2 hok).mpr ⟨rfl, gArg1, by decide, by decide⟩
    simpa [initDr] using h2

end Grappa
